import Mathlib

/-!
Shallow embedding of the core of `phog` (a tweet-archiving tool) and proofs
about it.  The embedding follows the Rust sources:

* `src/database.rs` — the SQLite-backed store (tables `tweets` and
  `pruned_tweets`, plus the `seen_tweets` view declared in `data/schema.sql`).
* `src/downloader.rs` — the photo downloader (destination naming, the
  `FileWriter` temp-file state machine, multi-photo batch processing).
* `src/recording/fetch.rs` — the paginated timeline fetch controller.

Modelling conventions:
* Machine integers (`u64`, `usize`, `i64` row ids) are modelled as `Nat`;
  ids are stored as TEXT in SQLite but every stored id is produced by
  `u64::to_string` and read back with `u64::from_str`, which are mutually
  inverse on canonical decimal strings, so `Nat` is a faithful view.
* SQL timestamps (`CURRENT_TIMESTAMP`) are opaque strings passed in as
  parameters.
* Fallible operations return `Except`/`Option`; a Rust `panic!`/`expect`
  is modelled as `Option.none`.
* JSON payloads are modelled by the view the store extracts from them via
  `json_extract` (author id string, screen name, id string, media field).
-/

namespace Phog

/-- A media entity decoded from a tweet payload (struct `MediaEntity` in
src/database.rs): its https URL and its type tag (for example "photo"). -/
structure MediaEntity where
  media_url_https : String
  type_ : String
deriving DecidableEq, Repr

/-- Outcome of decoding the extracted media column with
serde as an optional list of media entities
(`serde_json::from_str::<Option<Vec<MediaEntity>>>` in src/database.rs):
a decode error, the JSON null (no media), or a list of entities. -/
inductive MediaParse where
  | malformed
  | noMedia
  | entities (es : List MediaEntity)
deriving DecidableEq, Repr

/-- The JSON-extractable view of a stored tweet payload: exactly the fields
the store reads back with `json_extract` in src/database.rs
(paths user.id_str, user.screen_name, id_str, extended_entities.media). -/
structure Content where
  user_id : String
  screen_name : String
  id_str : String
  media : MediaParse
deriving DecidableEq, Repr

/-- An input tweet (struct `Tweet` in src/egg_mode_ext.rs): numeric id, the
raw JSON payload (modelled by its extractable view `content`), and the
author's numeric user id when present (field `user` of the parsed tweet). -/
structure Tweet where
  id : Nat
  content : Content
  user : Option Nat
deriving DecidableEq, Repr

/-- One row of the active `tweets` table (columns per the INSERT in
`Connection::insert_tweets`, src/database.rs): rowid, status id, payload,
in-timeline flag, recorded timestamp, nullable photos-downloaded timestamp. -/
structure TweetRow where
  rowid : Nat
  status_id : Nat
  content : Content
  in_timeline : Bool
  recorded_at : String
  photos_downloaded_at : Option String
deriving DecidableEq, Repr

/-- One row of the `pruned_tweets` table (columns per the INSERT in
`Connection::prune_tweets`, src/database.rs). -/
structure PrunedRow where
  status_id : Nat
  user_id : String
  screen_name : String
  media : Option MediaParse
  in_timeline : Bool
  recorded_at : Option String
  photos_downloaded_at : Option String
  pruned_at : String
deriving DecidableEq, Repr

/-- The database state: the active `tweets` table (in insertion order, which
is also `ORDER BY id` order) and the `pruned_tweets` table. -/
structure DB where
  tweets : List TweetRow
  pruned : List PrunedRow
deriving DecidableEq, Repr

/-- A row of the `seen_tweets` view: status id, author id string, flag. -/
structure SeenRow where
  status_id : Nat
  user_id : String
  in_timeline : Bool
deriving DecidableEq, Repr

/-- Modelled from the spec: the `seen_tweets` view is declared in
`data/schema.sql`, which is absent from src/.  Per the spec's dedup contract
("anti-join against the union of both" tables; "an id present in either the
active or pruned store is never reinserted") and its use in
`select_max_status_id` (which needs user id and in-timeline flag), the view
is the union of the active and pruned rows projected to
(status id, author id, in-timeline flag); an active row's author id is the
payload's user.id_str. -/
def DB.seen_tweets (db : DB) : List SeenRow :=
  db.tweets.map (fun r => ⟨r.status_id, r.content.user_id, r.in_timeline⟩)
    ++ db.pruned.map (fun p => ⟨p.status_id, p.user_id, p.in_timeline⟩)

/-- Status ids present in either table (the ids of `seen_tweets`). -/
def DB.seenStatusIds (db : DB) : List Nat :=
  db.seen_tweets.map (fun r => r.status_id)

/-- `Connection::select_unseen_status_ids_from` (src/database.rs): stage the
candidate ids in a temp table with INSERT OR IGNORE (deduplicating them),
then EXCEPT the ids of `seen_tweets`.  Only membership in the result is ever
used (the caller collects it into a `HashSet`). -/
def DB.select_unseen_status_ids_from (db : DB) (status_ids : List Nat) : List Nat :=
  status_ids.dedup.filter (fun id => ¬ db.seenStatusIds.contains id)

/-- The rowid SQLite assigns to a newly inserted `tweets` row: one more than
the largest rowid in the table. -/
def nextRowid (rows : List TweetRow) : Nat :=
  (rows.map (fun r => r.rowid)).foldl max 0 + 1

/-- INSERT OR IGNORE of one row into `tweets`: skipped when a row with the
same status id exists (the table's unique-id constraint; the spec's data
model makes records "unique by id; insert is idempotent (insert-or-ignore)").
Returns the updated table and the number of rows changed (0 or 1). -/
def insertOrIgnoreTweetRow (rows : List TweetRow) (row : TweetRow) :
    List TweetRow × Nat :=
  if rows.any (fun r => r.status_id == row.status_id) then (rows, 0)
  else (rows ++ [row], 1)

/-- The insertion loop of `Connection::insert_tweets` (src/database.rs):
for each input tweet whose id is in the unseen set, INSERT OR IGNORE a new
row and accumulate the number of rows actually inserted. -/
def insertLoop (rows : List TweetRow) (ts : List Tweet) (in_timeline : Bool)
    (recorded_at : String) (unseen : List Nat) : List TweetRow × Nat :=
  match ts with
  | [] => (rows, 0)
  | t :: rest =>
    if unseen.contains t.id then
      let p := insertOrIgnoreTweetRow rows
        ⟨nextRowid rows, t.id, t.content, in_timeline, recorded_at, none⟩
      let q := insertLoop p.1 rest in_timeline recorded_at unseen
      (q.1, p.2 + q.2)
    else insertLoop rows rest in_timeline recorded_at unseen

/-- `Connection::insert_tweets` (src/database.rs): compute the unseen ids,
then insert the unseen input tweets with the given in-timeline flag and the
current timestamp; returns the count inserted. -/
def DB.insert_tweets (db : DB) (ts : List Tweet) (in_timeline : Bool)
    (recorded_at : String) : DB × Nat :=
  let unseen := db.select_unseen_status_ids_from (ts.map (fun t => t.id))
  let p := insertLoop db.tweets ts in_timeline recorded_at unseen
  ({ db with tweets := p.1 }, p.2)

/-- `Connection::insert_loose_tweets` (src/database.rs): one transaction
inserting the unseen tweets with in-timeline = false. -/
def DB.insert_loose_tweets (db : DB) (ts : List Tweet) (recorded_at : String) :
    DB × Nat :=
  db.insert_tweets ts false recorded_at

/-- The UPDATE of `Connection::insert_timeline_tweets` on the active table:
set in-timeline = 1 on every row whose status id matches. -/
def setInTimeline (rows : List TweetRow) (id : Nat) : List TweetRow :=
  rows.map (fun r => if r.status_id == id then { r with in_timeline := true } else r)

/-- The UPDATE of `Connection::insert_timeline_tweets` on the pruned table:
set in-timeline = 1 on every pruned row whose status id matches. -/
def setInTimelinePruned (rows : List PrunedRow) (id : Nat) : List PrunedRow :=
  rows.map (fun p => if p.status_id == id then { p with in_timeline := true } else p)

/-- The update pass of `Connection::insert_timeline_tweets`: for each
supplied tweet, in order, set in-timeline = 1 on the matching rows of both
the active and the pruned table. -/
def DB.promote_in_timeline (db : DB) (ts : List Tweet) : DB :=
  ts.foldl
    (fun d t =>
      { d with
        tweets := setInTimeline d.tweets t.id
        pruned := setInTimelinePruned d.pruned t.id })
    db

/-- `Connection::insert_timeline_tweets` (src/database.rs): in one
transaction, for each supplied tweet set in-timeline = 1 on matching rows of
both tables, then run the same dedup-and-insert with in-timeline = true. -/
def DB.insert_timeline_tweets (db : DB) (ts : List Tweet) (recorded_at : String) :
    DB × Nat :=
  (db.promote_in_timeline ts).insert_tweets ts true recorded_at

/-- `is_prunable_row` (src/database.rs): true iff the row has no media, or
the media contains no photos, or the photos are already downloaded.  The
extracted media column is an optional decoded value; a decode error yields
false in production (under test instrumentation the code panics instead;
this embedding models the production behaviour). -/
def is_prunable_row (media : Option MediaParse) (photos_downloaded_at : Option String) :
    Bool :=
  match media with
  | none => true
  | some m =>
    match m with
    | .malformed => false
    | .noMedia => true
    | .entities es =>
      if es.any (fun e => e.type_ == "photo") then photos_downloaded_at.isSome
      else true

/-- Prunability of an active row: `prune_tweets` extracts the media column
with IFNULL(json_extract, json_quote(json_extract)), which always yields a
non-null text (the JSON array, or the text "null" when the payload has no
media), so the decoded column is always `some` of the payload's media view. -/
def rowPrunable (r : TweetRow) : Bool :=
  is_prunable_row (some r.content.media) r.photos_downloaded_at

/-- The pruned-table row written for an active row by `prune_tweets`
(src/database.rs): the denormalized summary of the row. -/
def toPrunedRow (r : TweetRow) (pruned_at : String) : PrunedRow :=
  ⟨r.status_id, r.content.user_id, r.content.screen_name, some r.content.media,
    r.in_timeline, some r.recorded_at, r.photos_downloaded_at, pruned_at⟩

/-- INSERT OR IGNORE of one row into `pruned_tweets`: skipped when a row
with the same status id exists (the table's unique-id constraint, per the
spec's invariant that an id is never duplicated within either table). -/
def insertOrIgnorePrunedRow (rows : List PrunedRow) (row : PrunedRow) :
    List PrunedRow :=
  if rows.any (fun p => p.status_id == row.status_id) then rows
  else rows ++ [row]

/-- The loop of `Connection::prune_tweets` (src/database.rs): scan the
selected rows in order; for each prunable row, INSERT OR IGNORE its summary
into `pruned_tweets`, DELETE it from `tweets` by status id, and count it. -/
def pruneLoop (rows : List TweetRow) (tw : List TweetRow) (pr : List PrunedRow)
    (pruned_at : String) (n : Nat) : List TweetRow × List PrunedRow × Nat :=
  match rows with
  | [] => (tw, pr, n)
  | r :: rest =>
    if rowPrunable r then
      pruneLoop rest (tw.filter (fun x => x.status_id ≠ r.status_id))
        (insertOrIgnorePrunedRow pr (toPrunedRow r pruned_at)) pruned_at (n + 1)
    else pruneLoop rest tw pr pruned_at n

/-- `Connection::prune_tweets` (src/database.rs): full scan of the active
table in insertion order; every prunable row is copied into `pruned_tweets`
and deleted from `tweets`, in one transaction; returns the count pruned. -/
def DB.prune_tweets (db : DB) (pruned_at : String) : DB × Nat :=
  let p := pruneLoop db.tweets db.tweets db.pruned pruned_at 0
  (⟨p.1, p.2.1⟩, p.2.2)

/-- Helper vocabulary for stating the effect of pruning: the rows of `tw`
whose status id is not among `ids`. -/
def removeByStatusIds (tw : List TweetRow) (ids : List Nat) : List TweetRow :=
  tw.filter (fun x => x.status_id ∉ ids)

/-- `Connection::set_photos_downloaded_at` (src/database.rs): set the
photos-downloaded timestamp of the row with the given rowid; returns the
number of rows affected. -/
def DB.set_photos_downloaded_at (db : DB) (rowid : Nat) (now : String) : DB × Nat :=
  let n := (db.tweets.filter (fun r => r.rowid == rowid)).length
  ({ db with
      tweets := db.tweets.map
        (fun r => if r.rowid == rowid then { r with photos_downloaded_at := some now } else r) },
    n)

/-- `Connection::select_max_status_id` (src/database.rs): among the
`seen_tweets` rows of the given author with in-timeline = 1, the numerically
largest status id (the code parses the TEXT ids as u64 and maximizes). -/
def DB.select_max_status_id (db : DB) (user_id : Nat) : Option Nat :=
  let ids := (db.seen_tweets.filter
    (fun r => r.user_id == Nat.repr user_id && r.in_timeline)).map
    (fun r => r.status_id)
  ids.foldl (fun acc i => match acc with
    | none => some i
    | some m => some (max m i)) none

/-- A photoset (struct `Photoset` in src/database.rs): source rowid, author
screen name, record id string, and the ordered photo URLs. -/
structure Photoset where
  rowid : Nat
  screen_name : String
  id_str : String
  photo_urls : List String
deriving DecidableEq, Repr

/-- `build_photoset` (src/database.rs): decode the media column; a decode
error is an error for the whole call (the `bail!` branch); JSON null is no
photoset; otherwise keep the photo entries' URLs, yielding no photoset when
there are none. -/
def build_photoset (rowid : Nat) (screen_name id_str : String) (media : MediaParse) :
    Except Unit (Option Photoset) :=
  match media with
  | .entities es =>
    let photo_urls := es.filterMap
      (fun m => if m.type_ == "photo" then some m.media_url_https else none)
    if photo_urls.isEmpty then .ok none
    else .ok (some ⟨rowid, screen_name, id_str, photo_urls⟩)
  | .noMedia => .ok none
  | .malformed => .error ()

/-- The row loop of `Connection::select_not_downloaded_photos`: build each
row's photoset, accumulating `Ok(Some)` results; an `Err` from
`build_photoset` is returned for the whole call. -/
def collectPhotosets : List TweetRow → Except Unit (List Photoset)
  | [] => .ok []
  | r :: rest =>
    match build_photoset r.rowid r.content.screen_name r.content.id_str r.content.media with
    | .ok (some ps) =>
      match collectPhotosets rest with
      | .ok l => .ok (ps :: l)
      | .error e => .error e
    | .ok none => collectPhotosets rest
    | .error e => .error e

/-- `Connection::select_not_downloaded_photos` (src/database.rs): scan the
rows whose photos-downloaded timestamp is NULL and build their photosets. -/
def DB.select_not_downloaded_photos (db : DB) : Except Unit (List Photoset) :=
  collectPhotosets (db.tweets.filter (fun r => r.photos_downloaded_at.isNone))

/-- Whether some row (active or pruned) with the given status id has its
in-timeline flag set. -/
def DB.inTimelineTrue (db : DB) (id : Nat) : Bool :=
  db.tweets.any (fun r => r.status_id == id && r.in_timeline)
    || db.pruned.any (fun p => p.status_id == id && p.in_timeline)

/-! ### Fetch controller (src/recording/fetch.rs) -/

/-- `MAX_DEPTH` (src/recording/fetch.rs). -/
def MAX_DEPTH : Nat := 20

/-- One response of the remote feed: the returned tweets and the rate-limit
remaining counter of the response (the only counter the controller tests). -/
structure Page where
  tweets : List Tweet
  remaining : Nat
deriving Repr

/-- `find_since_id` (src/recording/fetch.rs): from the first fetched tweet's
author, the stored maximal synced status id, if any. -/
def find_since_id (ts : List Tweet) (db : DB) : Option Nat :=
  match ts with
  | [] => none
  | t :: _ =>
    match t.user with
    | none => none
    | some uid => db.select_max_status_id uid

/-- The since-id computed for a run of `Fetch::from_user`: only when the
run uses since-id incremental sync. -/
def since_id_of (db : DB) (feed : Nat → Page) (uses_since_id : Bool) : Option Nat :=
  if uses_since_id then find_since_id (feed 1).tweets db else none

/-- The first stop condition of `Fetch::from_user`: a since-id is set and
every id of page 1 is at or below it (the `break` before the page loop). -/
def page1_stop (db : DB) (feed : Nat → Page) (uses_since_id : Bool) : Bool :=
  match since_id_of db feed uses_since_id with
  | some s => (feed 1).tweets.all (fun t => t.id ≤ s)
  | none => false

/-- How the paging block of `Fetch::from_user` ends: the rate-limit `bail!`
(fatal), a `break` out of the block (which skips the depth warning check),
or normal completion of the `for` loop with the final value of the
`reached_max_depth` flag. -/
inductive LoopExit where
  | fatal
  | stopped (tweets : List Tweet)
  | completed (tweets : List Tweet) (reached_max_depth : Bool)
deriving Repr

/-- The `for page in 2..=depth` loop of `Fetch::from_user`
(src/recording/fetch.rs): `page` is the current page number and `cnt` the
number of page requests still allowed.  Each iteration appends the page's
tweets, then bails fatally when the remaining counter is 0 and the page was
nonempty, breaks out of the block on an empty page, and otherwise records
whether the page number reached `MAX_DEPTH` and continues.  The feed is a
deterministic script mapping the page number to its response. -/
def fetch_loop (feed : Nat → Page) : Nat → Nat → List Tweet → Bool → LoopExit
  | _, 0, acc, rmd => .completed acc rmd
  | page, cnt + 1, acc, _ =>
    let resp := feed page
    let acc' := acc ++ resp.tweets
    if resp.remaining == 0 && !resp.tweets.isEmpty then .fatal
    else if resp.tweets.isEmpty then .stopped acc'
    else fetch_loop feed (page + 1) cnt acc' (decide (MAX_DEPTH ≤ page))

/-- Result of fetching one author in `Fetch::from_user`: the fatal
rate-limit `bail!`, or completion with the "longer than expected" warning
flag, the tweets fetched, the count newly recorded, and the updated store. -/
inductive FetchOutcome where
  | fatal
  | done (warned : Bool) (fetched : List Tweet) (inserted : Nat) (db : DB)
deriving Repr

/-- The warning flag of a completed fetch (none for a fatal one). -/
def FetchOutcome.warnedFlag : FetchOutcome → Option Bool
  | .fatal => none
  | .done w _ _ _ => some w

/-- The body of `Fetch::from_user` (src/recording/fetch.rs) for a single
author against a deterministic feed script: fetch page 1, compute the
since-id, stop early when page 1 is already synced, otherwise run the page
loop for pages 2..=depth; on completion emit the depth warning exactly when
the loop's `reached_max_depth` flag is set, and record the collected tweets
with `insert_timeline_tweets`. -/
def from_user_one (db : DB) (feed : Nat → Page) (uses_since_id : Bool)
    (depth : Nat) (now : String) : FetchOutcome :=
  let tweets := (feed 1).tweets
  let ex :=
    if page1_stop db feed uses_since_id then LoopExit.stopped tweets
    else fetch_loop feed 2 (depth - 1) tweets false
  match ex with
  | .fatal => .fatal
  | .stopped tws =>
    let p := db.insert_timeline_tweets tws now
    .done false tws p.2 p.1
  | .completed tws rmd =>
    let p := db.insert_timeline_tweets tws now
    .done rmd tws p.2 p.1

/-! ### Downloader (src/downloader.rs) -/

/-- The formatted destination file name used by `build_photo_path`
(src/downloader.rs): at-sign, screen name, dash, record id string, dash,
"img" with the 1-based index, dash, remote base name. -/
def photoPathString (screen_name id_str : String) (index : Nat) (name : String) :
    String :=
  "@" ++ screen_name ++ "-" ++ id_str ++ "-img" ++ Nat.repr index ++ "-" ++ name

/-- Splitting a character list on a separator (every occurrence), keeping
empty components; the result is always nonempty. -/
def splitOnChar (sep : Char) : List Char → List (List Char)
  | [] => [[]]
  | c :: rest =>
    match splitOnChar sep rest with
    | [] => [[]]
    | cur :: done => if c = sep then [] :: cur :: done else (c :: cur) :: done

/-- Splitting a URL at its first "://" into the scheme and the remainder;
`none` when the marker is absent. -/
def splitScheme : List Char → Option (List Char × List Char)
  | [] => none
  | ':' :: '/' :: '/' :: rest => some ([], rest)
  | c :: rest => (splitScheme rest).map (fun p => (c :: p.1, p.2))

/-- Modelled: the external url crate's `Url::parse` combined with
`path_segments`, restricted to what `build_photo_path` consumes.  An
absolute URL needs a nonempty alphabetic scheme before "://"; its path
segments are the slash-separated components after the authority (a URL
without a path has the single empty segment, as the crate normalizes the
path to "/").  `none` models a parse failure (Rust: an `Err` from
`Url::parse`, turned into a panic by the `expect`). -/
def urlPathSegments (s : String) : Option (List String) :=
  match splitScheme s.data with
  | none => none
  | some (scheme, rest) =>
    if scheme ≠ [] ∧ scheme.all Char.isAlpha then
      match splitOnChar '/' rest with
      | [] => some [""]
      | [_host] => some [""]
      | _host :: seg :: segs => some ((seg :: segs).map (fun l => String.mk l))
    else none

/-- `build_photo_path` (src/downloader.rs): parse the photo URL (panicking
on failure, modelled by `none`), take the last path segment as the base
name, and format the destination name.  `path_segments` yields at least one
segment whenever parsing succeeded, so the second `expect` cannot fire. -/
def build_photo_path (ps : Photoset) (photo_url : String) (index : Nat) :
    Option String :=
  match urlPathSegments photo_url with
  | none => none
  | some segs =>
    match segs.getLast? with
    | none => none
    | some name => some (photoPathString ps.screen_name ps.id_str index name)

/-- `make_part_path` (src/downloader.rs): the temporary sibling of a
destination, its file name plus the ".part" suffix.  Paths are modelled as
bare file names (the downloader writes into the working directory). -/
def make_part_path (path : String) : String :=
  path ++ ".part"

/-- The filesystem visible to the downloader: the set of existing paths,
modelled as a list without meaningful order. -/
def fsCreate (fs : List String) (p : String) : List String :=
  if fs.contains p then fs else p :: fs

/-- Removal of a path from the modelled filesystem. -/
def fsRemove (fs : List String) (p : String) : List String :=
  fs.filter (fun q => q ≠ p)

/-- Atomic rename: the source path disappears, the target appears. -/
def fsRename (fs : List String) (src dst : String) : List String :=
  fsCreate (fsRemove fs src) dst

/-- The file slot of a `FileWriter` (enum `FileWriterFile` in
src/downloader.rs): closed, opened on a part path with its destination, or
not yet opened. -/
inductive FileWriterFile where
  | Closed
  | Opened (part_path dest_path : String)
  | Unopened (dest_path : String)
deriving DecidableEq, Repr

/-- The `FileWriter` of src/downloader.rs: its file slot and whether its
recorded io result is still ok (`io_result.is_ok()`). -/
structure FileWriter where
  file : FileWriterFile
  io_ok : Bool
deriving DecidableEq, Repr

/-- `FileWriter::new`: an unopened writer for the destination path. -/
def FileWriter.new (dest_path : String) : FileWriter :=
  ⟨.Unopened dest_path, true⟩

/-- `FileWriter::write_to_file` (src/downloader.rs): a no-op after an io
error; otherwise `file()` lazily creates the part file on first use (a
closed slot is an io error), and the write either succeeds or records an io
error (`ok` is whether the OS write succeeds). -/
def write_to_file (fs : List String) (w : FileWriter) (ok : Bool) :
    List String × FileWriter :=
  if !w.io_ok then (fs, w)
  else
    match w.file with
    | .Unopened dest =>
      let part := make_part_path dest
      (fsCreate fs part, ⟨.Opened part dest, ok⟩)
    | .Opened part dest => (fs, ⟨.Opened part dest, ok⟩)
    | .Closed => (fs, ⟨.Closed, false⟩)

/-- `FileWriter::finish` (src/downloader.rs): an error when an io error was
recorded (state unchanged); otherwise swap the slot to closed and, when it
was opened, atomically rename the part file to the destination.  The third
component is whether finish returned ok. -/
def finishWriter (fs : List String) (w : FileWriter) :
    List String × FileWriter × Bool :=
  if !w.io_ok then (fs, w, false)
  else
    match w.file with
    | .Opened part dest => (fsRename fs part dest, ⟨.Closed, w.io_ok⟩, true)
    | _ => (fs, ⟨.Closed, w.io_ok⟩, true)

/-- `FileWriter::discard_part` (src/downloader.rs): swap the slot to closed
and, when it was opened, delete the part file; the io result is untouched.
`Drop for FileWriter` runs exactly this, ignoring its result. -/
def discard_part (fs : List String) (w : FileWriter) :
    List String × FileWriter :=
  match w.file with
  | .Opened part _ => (fsRemove fs part, ⟨.Closed, w.io_ok⟩)
  | _ => (fs, ⟨.Closed, w.io_ok⟩)

/-- An event in a writer's lifetime: a data chunk arriving (with the OS
write outcome), an explicit finish, or a discard (also what dropping the
writer runs). -/
inductive FwEvent where
  | write (ok : Bool)
  | finish
  | discard
deriving DecidableEq, Repr

/-- One step of a writer's life against the filesystem. -/
def fwStep (s : List String × FileWriter) (e : FwEvent) :
    List String × FileWriter :=
  match e with
  | .write ok => write_to_file s.1 s.2 ok
  | .finish =>
    let p := finishWriter s.1 s.2
    (p.1, p.2.1)
  | .discard => discard_part s.1 s.2

/-- A writer's whole life: folding its events over the filesystem. -/
def fwRun (fs : List String) (w : FileWriter) (es : List FwEvent) :
    List String × FileWriter :=
  es.foldl fwStep (fs, w)

/-! ### Multi-photo batches (`Downloader::download_multi_photo_photosets`) -/

/-- Outcome of one concurrent transfer in a batch: whether any data arrived
(opening the part file), and whether curl reported the transfer ok.  An io
error while writing makes the transfer itself fail (the handler returns a
wrong byte count), so io failures are subsumed by `ok = false`. -/
structure TransferResult where
  received : Bool
  ok : Bool
deriving DecidableEq, Repr

/-- The destination paths of a photoset's batch, per the job-adding loop of
`download_multi_photo_photosets`: `build_photo_path` on each URL with its
1-based index; a panic in any of them (`none`) aborts the run. -/
def multiSetPaths (ps : Photoset) : Option (List String) :=
  (ps.photo_urls.zip (List.range' 1 ps.photo_urls.length)).mapM
    (fun q => build_photo_path ps q.1 q.2)

/-- The state of one transfer's writer after curl drove it: a transfer that
received data performed at least one successful OS write (OS-level write
errors surface as transfer failures, which `ok` covers). -/
def writerAfterTransfer (fs : List String) (dest : String) (r : TransferResult) :
    List String × FileWriter :=
  if r.received then write_to_file fs (FileWriter.new dest) true
  else (fs, FileWriter.new dest)

/-- All transfers of a batch running to completion: each job's writer writes
its own part file; the transfers touch disjoint paths, so driving them in
job order is faithful to the concurrent execution. -/
def runMultiTransfers (fs : List String) :
    List (String × TransferResult) → List String × List FileWriter
  | [] => (fs, [])
  | (dest, r) :: rest =>
    let p := writerAfterTransfer fs dest r
    let q := runMultiTransfers p.1 rest
    (q.1, p.2 :: q.2)

/-- The failure path of `download_multi_photo_photosets`: removing every
handle drops every writer, which discards its part file. -/
def discardAll (fs : List String) : List FileWriter → List String
  | [] => fs
  | w :: ws => discardAll (discard_part fs w).1 ws

/-- The success path of `download_multi_photo_photosets`: finish every
writer in order, conjoining the finish results (`all_finish_succeeds`). -/
def finishAll (fs : List String) : List FileWriter → List String × Bool
  | [] => (fs, true)
  | w :: ws =>
    let p := finishWriter fs w
    let q := finishAll p.1 ws
    (q.1, p.2.2 && q.2)

/-- One iteration of the `'each_multi_set` loop of
`Downloader::download_multi_photo_photosets` (src/downloader.rs), for a
deterministic script of per-transfer outcomes indexed by the 1-based photo
index: add a job per photo, run the batch; if any transfer failed, drop all
handles (discarding every part file) and skip the set; otherwise finish all
writers and, when every finish succeeded, invoke the completion callback.
Returns the filesystem and whether the callback was invoked; `none` models
a `build_photo_path` panic. -/
def process_multi_set (fs : List String) (ps : Photoset)
    (results : Nat → TransferResult) : Option (List String × Bool) :=
  match multiSetPaths ps with
  | none => none
  | some dests =>
    let pairs := (dests.zip (List.range' 1 dests.length)).map
      (fun q => (q.1, results q.2))
    let p := runMultiTransfers fs pairs
    if pairs.any (fun q => !q.2.ok) then some (discardAll p.1 p.2, false)
    else
      let q := finishAll p.1 p.2
      some (q.1, q.2)

/-- A multi-photo batch together with its completion callback, which (per
the callback installed in src/commands/download.rs) marks the photoset's
row as downloaded via `set_photos_downloaded_at`. -/
def download_multi_photo_photoset (fs : List String) (db : DB) (ps : Photoset)
    (results : Nat → TransferResult) (now : String) :
    Option (List String × DB) :=
  match process_multi_set fs ps results with
  | none => none
  | some (fs', invoked) =>
    (fs', if invoked then (db.set_photos_downloaded_at ps.rowid now).1 else db)

/-! ### Concrete example data for witnesses -/

/-- Example payload view (a tweet of author "anon" with no media). -/
def exContent (id_str : String) : Content := ⟨"1", "anon", id_str, .noMedia⟩

/-- Example input tweet with the given id. -/
def exTweet (i : Nat) : Tweet := ⟨i, exContent (Nat.repr i), some 1⟩

/-- Example input batch, containing a duplicated id. -/
def exTweets : List Tweet := [exTweet 5, exTweet 6, exTweet 5, exTweet 7]

/-- Example store already holding the row with id 6. -/
def exDB1 : DB := ⟨[⟨1, 6, exContent "6", false, "t0", none⟩], []⟩

/-- Example media descriptor: two videos, no photo. -/
def exMediaVideos : MediaParse := .entities [⟨"", "video"⟩, ⟨"", "video"⟩]

/-- Example media descriptor: one photo at the given URL plus a video. -/
def exMediaPhoto (u : String) : MediaParse := .entities [⟨u, "photo"⟩, ⟨"", "video"⟩]

/-- Example store with four active rows: no media (id 10), media without
photos (id 11), photo already downloaded (id 12), photo pending (id 20). -/
def exDB4 : DB :=
  ⟨[⟨1, 10, ⟨"1", "anon", "10", .noMedia⟩, false, "t0", none⟩,
    ⟨2, 11, ⟨"1", "anon", "11", exMediaVideos⟩, false, "t0", none⟩,
    ⟨3, 12, ⟨"1", "anon", "12", exMediaPhoto "u12"⟩, false, "t0", some "t0"⟩,
    ⟨4, 20, ⟨"1", "anon", "20", exMediaPhoto "u20"⟩, false, "t0", none⟩], []⟩

/-- Example store with a malformed-media pending row (id 30) followed by a
well-formed pending photo row (id 20). -/
def exDBmal : DB :=
  ⟨[⟨1, 30, ⟨"1", "anon", "30", .malformed⟩, false, "t0", none⟩,
    ⟨2, 20, ⟨"1", "anon", "20", exMediaPhoto "u20"⟩, false, "t0", none⟩], []⟩

/-- Example store with an in-timeline active row (id 8) and a pruned loose
row (id 9). -/
def exDB5 : DB :=
  ⟨[⟨1, 8, exContent "8", true, "t0", none⟩],
    [⟨9, "1", "anon", some .noMedia, false, some "t0", none, "t0"⟩]⟩

/-- Helper vocabulary: the numeric value of a most-significant-first decimal
digit string (used to show decimal rendering is injective). -/
def decimalVal (l : List Char) : Nat :=
  l.foldl (fun a c => a * 10 + (c.toNat - Char.toNat '0')) 0

/-- Example feed whose every page has one tweet and an exhausted rate
limit. -/
def exFeedC6 : Nat → Page := fun _ => ⟨[exTweet 101], 0⟩

/-- Example feed whose third page has one tweet and an exhausted rate limit;
other pages are healthy. -/
def exFeedC6b : Nat → Page :=
  fun j => if j = 3 then ⟨[exTweet 50], 0⟩ else ⟨[exTweet (100 + j)], 9⟩

/-- Example healthy feed: every page has one tweet and budget 7. -/
def exFeedC7 : Nat → Page := fun j => ⟨[exTweet (100 + j)], 7⟩

/-- Helper vocabulary: the writer state a batch transfer leaves behind —
opened on its part file when any data arrived, untouched otherwise. -/
def writerAfter (q : String × TransferResult) : FileWriter :=
  if q.2.received then ⟨.Opened (make_part_path q.1) q.1, true⟩
  else FileWriter.new q.1

/-! ## Lemmas about insertion -/

theorem insertOrIgnoreTweetRow_pos (rows : List TweetRow) (row : TweetRow)
    (h : ∃ r ∈ rows, r.status_id = row.status_id) :
    insertOrIgnoreTweetRow rows row = (rows, 0) := by
  simp [insertOrIgnoreTweetRow, h]

theorem insertOrIgnoreTweetRow_neg (rows : List TweetRow) (row : TweetRow)
    (h : ¬ ∃ r ∈ rows, r.status_id = row.status_id) :
    insertOrIgnoreTweetRow rows row = (rows ++ [row], 1) := by
  simp only [insertOrIgnoreTweetRow, List.any_eq_true, beq_iff_eq]
  rw [if_neg]
  simpa using h

theorem insertLoop_cons (rows : List TweetRow) (t : Tweet) (rest : List Tweet)
    (it : Bool) (rc : String) (unseen : List Nat) :
    insertLoop rows (t :: rest) it rc unseen =
      if t.id ∈ unseen then
        ((insertLoop (insertOrIgnoreTweetRow rows
            ⟨nextRowid rows, t.id, t.content, it, rc, none⟩).1 rest it rc unseen).1,
          (insertOrIgnoreTweetRow rows
            ⟨nextRowid rows, t.id, t.content, it, rc, none⟩).2 +
          (insertLoop (insertOrIgnoreTweetRow rows
            ⟨nextRowid rows, t.id, t.content, it, rc, none⟩).1 rest it rc unseen).2)
      else insertLoop rows rest it rc unseen := by
  simp [insertLoop]

theorem insertLoop_fst_append (ts : List Tweet) (rows : List TweetRow) (it : Bool)
    (rc : String) (unseen : List Nat) :
    ∃ ext, (insertLoop rows ts it rc unseen).1 = rows ++ ext := by
  induction ts generalizing rows with
  | nil => exact ⟨[], by simp [insertLoop]⟩
  | cons t rest ih =>
    rw [insertLoop_cons]
    by_cases h : t.id ∈ unseen
    · rw [if_pos h]
      obtain ⟨e₁, he₁⟩ : ∃ e₁,
          (insertOrIgnoreTweetRow rows
            ⟨nextRowid rows, t.id, t.content, it, rc, none⟩).1 = rows ++ e₁ := by
        by_cases h2 : ∃ r ∈ rows, r.status_id = t.id
        · exact ⟨[], by rw [insertOrIgnoreTweetRow_pos _ _ h2]; simp⟩
        · exact ⟨[⟨nextRowid rows, t.id, t.content, it, rc, none⟩],
            by rw [insertOrIgnoreTweetRow_neg _ _ h2]⟩
      obtain ⟨e₂, he₂⟩ := ih
        (insertOrIgnoreTweetRow rows ⟨nextRowid rows, t.id, t.content, it, rc, none⟩).1
      exact ⟨e₁ ++ e₂, by rw [he₂, he₁, List.append_assoc]⟩
    · rw [if_neg h]
      exact ih rows

theorem mem_insertLoop_fst_of_mem (ts : List Tweet) (rows : List TweetRow) (it : Bool)
    (rc : String) (unseen : List Nat) (r : TweetRow) (hr : r ∈ rows) :
    r ∈ (insertLoop rows ts it rc unseen).1 := by
  obtain ⟨ext, hext⟩ := insertLoop_fst_append ts rows it rc unseen
  rw [hext]
  exact List.mem_append_left _ hr

theorem insertLoop_mem_ids (ts : List Tweet) (rows : List TweetRow) (it : Bool)
    (rc : String) (unseen : List Nat) (t : Tweet) (ht : t ∈ ts)
    (hu : t.id ∈ unseen) :
    t.id ∈ (insertLoop rows ts it rc unseen).1.map (fun r => r.status_id) := by
  induction ts generalizing rows with
  | nil => cases ht
  | cons t₀ rest ih =>
    rcases List.mem_cons.mp ht with rfl | hmem
    · rw [insertLoop_cons, if_pos hu]
      have hmem1 : t.id ∈ (insertOrIgnoreTweetRow rows
          ⟨nextRowid rows, t.id, t.content, it, rc, none⟩).1.map (fun r => r.status_id) := by
        by_cases h2 : ∃ r ∈ rows, r.status_id = t.id
        · rw [insertOrIgnoreTweetRow_pos _ _ h2]
          obtain ⟨r, hr, hid⟩ := h2
          exact List.mem_map.mpr ⟨r, hr, hid⟩
        · rw [insertOrIgnoreTweetRow_neg _ _ h2]
          simp
      obtain ⟨ext, hext⟩ := insertLoop_fst_append rest
        (insertOrIgnoreTweetRow rows ⟨nextRowid rows, t.id, t.content, it, rc, none⟩).1
        it rc unseen
      rw [hext]
      obtain ⟨r, hr, hid⟩ := List.mem_map.mp hmem1
      exact List.mem_map.mpr ⟨r, List.mem_append_left _ hr, hid⟩
    · rw [insertLoop_cons]
      by_cases h : t₀.id ∈ unseen
      · rw [if_pos h]
        exact ih _ hmem
      · rw [if_neg h]
        exact ih _ hmem

theorem insertLoop_unseen_nil (ts : List Tweet) (rows : List TweetRow) (it : Bool)
    (rc : String) : insertLoop rows ts it rc [] = (rows, 0) := by
  induction ts with
  | nil => rfl
  | cons t rest ih => rw [insertLoop_cons, if_neg (List.not_mem_nil t.id)]; exact ih

theorem insertLoop_fst_mem (ts : List Tweet) (rows : List TweetRow) (it : Bool)
    (rc : String) (unseen : List Nat) (r : TweetRow)
    (h : r ∈ (insertLoop rows ts it rc unseen).1) :
    r ∈ rows ∨ (r.status_id ∈ unseen ∧ r.in_timeline = it) := by
  induction ts generalizing rows with
  | nil => exact Or.inl (by simpa [insertLoop] using h)
  | cons t rest ih =>
    rw [insertLoop_cons] at h
    by_cases hc : t.id ∈ unseen
    · rw [if_pos hc] at h
      rcases ih _ h with hmem | hu
      · by_cases h2 : ∃ r ∈ rows, r.status_id = t.id
        · rw [insertOrIgnoreTweetRow_pos _ _ h2] at hmem
          exact Or.inl hmem
        · rw [insertOrIgnoreTweetRow_neg _ _ h2] at hmem
          rcases List.mem_append.mp hmem with hmem | hmem
          · exact Or.inl hmem
          · simp only [List.mem_singleton] at hmem
            subst hmem
            exact Or.inr ⟨hc, rfl⟩
      · exact Or.inr hu
    · rw [if_neg hc] at h
      exact ih _ h

theorem insertLoop_ids_nodup (ts : List Tweet) (rows : List TweetRow) (it : Bool)
    (rc : String) (unseen : List Nat)
    (h : (rows.map (fun r => r.status_id)).Nodup) :
    ((insertLoop rows ts it rc unseen).1.map (fun r => r.status_id)).Nodup := by
  induction ts generalizing rows with
  | nil => simpa [insertLoop] using h
  | cons t rest ih =>
    rw [insertLoop_cons]
    by_cases hc : t.id ∈ unseen
    · rw [if_pos hc]
      apply ih
      by_cases h2 : ∃ r ∈ rows, r.status_id = t.id
      · rw [insertOrIgnoreTweetRow_pos _ _ h2]
        exact h
      · rw [insertOrIgnoreTweetRow_neg _ _ h2]
        simp only [List.map_append, List.map_cons, List.map_nil]
        rw [List.nodup_append]
        refine ⟨h, List.nodup_singleton _, ?_⟩
        intro a ha hb
        simp only [List.mem_singleton] at hb
        subst hb
        obtain ⟨r, hr, hid⟩ := List.mem_map.mp ha
        exact h2 ⟨r, hr, hid⟩
    · rw [if_neg hc]
      exact ih _ h

/-! ## Lemmas about the in-timeline update pass -/

theorem setInTimeline_step_true (rows : List TweetRow) (j i : Nat)
    (h : ∀ r ∈ rows, r.status_id = i → r.in_timeline = true) :
    ∀ r' ∈ setInTimeline rows j, r'.status_id = i → r'.in_timeline = true := by
  intro r' hr' hid
  obtain ⟨r, hr, rfl⟩ := List.mem_map.mp hr'
  by_cases hj : r.status_id == j
  · simp [hj]
  · simp only [hj, if_neg, Bool.false_eq_true, not_false_eq_true, if_neg] at hid ⊢
    simp only [Bool.not_eq_true] at hj
    exact h r hr (by simpa [hj] using hid)

theorem setInTimeline_sets (rows : List TweetRow) (j : Nat) :
    ∀ r' ∈ setInTimeline rows j, r'.status_id = j → r'.in_timeline = true := by
  intro r' hr' hid
  obtain ⟨r, hr, rfl⟩ := List.mem_map.mp hr'
  by_cases hj : r.status_id == j
  · simp [hj]
  · simp only [hj, if_neg, Bool.false_eq_true, not_false_eq_true, if_neg] at hid
    exact absurd (beq_iff_eq.mpr hid) (by simpa using hj)

theorem setInTimeline_keep (rows : List TweetRow) (j : Nat) (r : TweetRow)
    (hr : r ∈ rows) (htrue : r.in_timeline = true) :
    ∃ r' ∈ setInTimeline rows j, r'.status_id = r.status_id ∧ r'.in_timeline = true := by
  by_cases hj : r.status_id == j
  · exact ⟨{ r with in_timeline := true }, List.mem_map.mpr ⟨r, hr, by simp [hj]⟩,
      rfl, rfl⟩
  · exact ⟨r, List.mem_map.mpr ⟨r, hr, by simp [hj]⟩, rfl, htrue⟩

theorem setInTimeline_noop (rows : List TweetRow) (j : Nat)
    (h : ∀ r ∈ rows, r.status_id = j → r.in_timeline = true) :
    setInTimeline rows j = rows := by
  induction rows with
  | nil => rfl
  | cons r rest ih =>
    have hrest : setInTimeline rest j = rest :=
      ih (fun x hx => h x (List.mem_cons_of_mem _ hx))
    by_cases hj : r.status_id == j
    · have htrue : r.in_timeline = true :=
        h r (List.mem_cons_self r rest) (beq_iff_eq.mp hj)
      have heq : ({ r with in_timeline := true } : TweetRow) = r := by
        cases r
        simp_all
      show (if (r.status_id == j) = true then { r with in_timeline := true } else r) ::
          setInTimeline rest j = r :: rest
      rw [if_pos hj, heq, hrest]
    · show (if (r.status_id == j) = true then { r with in_timeline := true } else r) ::
          setInTimeline rest j = r :: rest
      rw [if_neg hj, hrest]

theorem setInTimeline_ids (rows : List TweetRow) (j : Nat) :
    (setInTimeline rows j).map (fun r => r.status_id) =
      rows.map (fun r => r.status_id) := by
  simp only [setInTimeline, List.map_map]
  apply List.map_congr_left
  intro r _
  by_cases hj : r.status_id = j <;> simp [hj]

theorem setInTimelinePruned_step_true (rows : List PrunedRow) (j i : Nat)
    (h : ∀ p ∈ rows, p.status_id = i → p.in_timeline = true) :
    ∀ p' ∈ setInTimelinePruned rows j, p'.status_id = i → p'.in_timeline = true := by
  intro p' hp' hid
  obtain ⟨p, hp, rfl⟩ := List.mem_map.mp hp'
  by_cases hj : p.status_id == j
  · simp [hj]
  · simp only [hj, if_neg, Bool.false_eq_true, not_false_eq_true, if_neg] at hid ⊢
    simp only [Bool.not_eq_true] at hj
    exact h p hp (by simpa [hj] using hid)

theorem setInTimelinePruned_sets (rows : List PrunedRow) (j : Nat) :
    ∀ p' ∈ setInTimelinePruned rows j, p'.status_id = j → p'.in_timeline = true := by
  intro p' hp' hid
  obtain ⟨p, hp, rfl⟩ := List.mem_map.mp hp'
  by_cases hj : p.status_id == j
  · simp [hj]
  · simp only [hj, if_neg, Bool.false_eq_true, not_false_eq_true, if_neg] at hid
    exact absurd (beq_iff_eq.mpr hid) (by simpa using hj)

theorem setInTimelinePruned_keep (rows : List PrunedRow) (j : Nat) (p : PrunedRow)
    (hp : p ∈ rows) (htrue : p.in_timeline = true) :
    ∃ p' ∈ setInTimelinePruned rows j,
      p'.status_id = p.status_id ∧ p'.in_timeline = true := by
  by_cases hj : p.status_id == j
  · exact ⟨{ p with in_timeline := true }, List.mem_map.mpr ⟨p, hp, by simp [hj]⟩,
      rfl, rfl⟩
  · exact ⟨p, List.mem_map.mpr ⟨p, hp, by simp [hj]⟩, rfl, htrue⟩

theorem setInTimelinePruned_noop (rows : List PrunedRow) (j : Nat)
    (h : ∀ p ∈ rows, p.status_id = j → p.in_timeline = true) :
    setInTimelinePruned rows j = rows := by
  induction rows with
  | nil => rfl
  | cons p rest ih =>
    have hrest : setInTimelinePruned rest j = rest :=
      ih (fun x hx => h x (List.mem_cons_of_mem _ hx))
    by_cases hj : p.status_id == j
    · have htrue : p.in_timeline = true :=
        h p (List.mem_cons_self p rest) (beq_iff_eq.mp hj)
      have heq : ({ p with in_timeline := true } : PrunedRow) = p := by
        cases p
        simp_all
      show (if (p.status_id == j) = true then { p with in_timeline := true } else p) ::
          setInTimelinePruned rest j = p :: rest
      rw [if_pos hj, heq, hrest]
    · show (if (p.status_id == j) = true then { p with in_timeline := true } else p) ::
          setInTimelinePruned rest j = p :: rest
      rw [if_neg hj, hrest]

theorem setInTimelinePruned_ids (rows : List PrunedRow) (j : Nat) :
    (setInTimelinePruned rows j).map (fun p => p.status_id) =
      rows.map (fun p => p.status_id) := by
  simp only [setInTimelinePruned, List.map_map]
  apply List.map_congr_left
  intro p _
  by_cases hj : p.status_id = j <;> simp [hj]

/-! ## Lemmas about the promotion fold and dedup insertion -/

theorem promote_cons (db : DB) (t : Tweet) (ts : List Tweet) :
    db.promote_in_timeline (t :: ts) =
      (DB.mk (setInTimeline db.tweets t.id) (setInTimelinePruned db.pruned t.id)
        ).promote_in_timeline ts := rfl

theorem promote_tweets_ids (db : DB) (ts : List Tweet) :
    (db.promote_in_timeline ts).tweets.map (fun r => r.status_id) =
      db.tweets.map (fun r => r.status_id) := by
  induction ts generalizing db with
  | nil => rfl
  | cons t rest ih => rw [promote_cons, ih]; exact setInTimeline_ids _ _

theorem promote_pruned_ids (db : DB) (ts : List Tweet) :
    (db.promote_in_timeline ts).pruned.map (fun p => p.status_id) =
      db.pruned.map (fun p => p.status_id) := by
  induction ts generalizing db with
  | nil => rfl
  | cons t rest ih => rw [promote_cons, ih]; exact setInTimelinePruned_ids _ _

theorem promote_step_true (db : DB) (ts : List Tweet) (i : Nat)
    (h : ∀ r ∈ db.tweets, r.status_id = i → r.in_timeline = true)
    (h' : ∀ p ∈ db.pruned, p.status_id = i → p.in_timeline = true) :
    (∀ r ∈ (db.promote_in_timeline ts).tweets, r.status_id = i → r.in_timeline = true) ∧
    (∀ p ∈ (db.promote_in_timeline ts).pruned, p.status_id = i → p.in_timeline = true) := by
  induction ts generalizing db with
  | nil => exact ⟨h, h'⟩
  | cons t rest ih =>
    rw [promote_cons]
    exact ih (DB.mk (setInTimeline db.tweets t.id) (setInTimelinePruned db.pruned t.id))
      (setInTimeline_step_true _ _ _ h) (setInTimelinePruned_step_true _ _ _ h')

theorem promote_sets (db : DB) (ts : List Tweet) (t : Tweet) (ht : t ∈ ts) :
    (∀ r ∈ (db.promote_in_timeline ts).tweets,
        r.status_id = t.id → r.in_timeline = true) ∧
    (∀ p ∈ (db.promote_in_timeline ts).pruned,
        p.status_id = t.id → p.in_timeline = true) := by
  induction ts generalizing db with
  | nil => cases ht
  | cons t₀ rest ih =>
    rw [promote_cons]
    rcases List.mem_cons.mp ht with rfl | hmem
    · exact promote_step_true _ _ _ (setInTimeline_sets _ _) (setInTimelinePruned_sets _ _)
    · exact ih _ hmem

theorem inTimelineTrue_iff (db : DB) (i : Nat) :
    db.inTimelineTrue i = true ↔
      (∃ r ∈ db.tweets, r.status_id = i ∧ r.in_timeline = true) ∨
      (∃ p ∈ db.pruned, p.status_id = i ∧ p.in_timeline = true) := by
  simp [DB.inTimelineTrue]

theorem promote_keeps_true (db : DB) (ts : List Tweet) (i : Nat)
    (h : db.inTimelineTrue i = true) :
    (db.promote_in_timeline ts).inTimelineTrue i = true := by
  induction ts generalizing db with
  | nil => exact h
  | cons t rest ih =>
    rw [promote_cons]
    apply ih
    rcases (inTimelineTrue_iff db i).mp h with ⟨r, hr, hid, htrue⟩ | ⟨p, hp, hid, htrue⟩
    · obtain ⟨r', hr', hid', htrue'⟩ := setInTimeline_keep db.tweets t.id r hr htrue
      exact (inTimelineTrue_iff _ _).mpr (Or.inl ⟨r', hr', hid ▸ hid', htrue'⟩)
    · obtain ⟨p', hp', hid', htrue'⟩ := setInTimelinePruned_keep db.pruned t.id p hp htrue
      exact (inTimelineTrue_iff _ _).mpr (Or.inr ⟨p', hp', hid ▸ hid', htrue'⟩)

theorem promote_noop (db : DB) (ts : List Tweet)
    (h : ∀ t ∈ ts,
      (∀ r ∈ db.tweets, r.status_id = t.id → r.in_timeline = true) ∧
      (∀ p ∈ db.pruned, p.status_id = t.id → p.in_timeline = true)) :
    db.promote_in_timeline ts = db := by
  induction ts generalizing db with
  | nil => rfl
  | cons t rest ih =>
    rw [promote_cons]
    have h0 := h t (List.mem_cons_self t rest)
    rw [setInTimeline_noop _ _ h0.1, setInTimelinePruned_noop _ _ h0.2]
    have hdb : DB.mk db.tweets db.pruned = db := by cases db; rfl
    rw [hdb]
    exact ih db (fun t' ht' => h t' (List.mem_cons_of_mem _ ht'))

theorem seenStatusIds_eq (db : DB) :
    db.seenStatusIds =
      db.tweets.map (fun r => r.status_id) ++ db.pruned.map (fun p => p.status_id) := by
  simp only [DB.seenStatusIds, DB.seen_tweets, List.map_append, List.map_map]
  rfl

theorem mem_unseen_not_seen (db : DB) (l : List Nat) (i : Nat)
    (h : i ∈ db.select_unseen_status_ids_from l) : i ∉ db.seenStatusIds := by
  simp only [DB.select_unseen_status_ids_from, List.mem_filter, List.mem_dedup,
    List.elem_eq_mem, decide_not, Bool.not_eq_eq_eq_not, Bool.not_true,
    decide_eq_false_iff_not, decide_eq_true_eq] at h
  exact h.2

theorem insert_tweets_pruned (db : DB) (ts : List Tweet) (it : Bool) (rc : String) :
    (db.insert_tweets ts it rc).1.pruned = db.pruned := rfl

theorem mem_insert_tweets_of_mem (db : DB) (ts : List Tweet) (it : Bool) (rc : String)
    (r : TweetRow) (hr : r ∈ db.tweets) : r ∈ (db.insert_tweets ts it rc).1.tweets :=
  mem_insertLoop_fst_of_mem _ _ _ _ _ _ hr

theorem insert_tweets_all_seen (db : DB) (ts : List Tweet) (it : Bool) (rc : String) :
    ∀ t ∈ ts, t.id ∈ (db.insert_tweets ts it rc).1.seenStatusIds := by
  intro t ht
  rw [seenStatusIds_eq]
  by_cases h : t.id ∈ db.seenStatusIds
  · rw [seenStatusIds_eq] at h
    rcases List.mem_append.mp h with h | h
    · obtain ⟨r, hr, hid⟩ := List.mem_map.mp h
      exact List.mem_append_left _
        (List.mem_map.mpr ⟨r, mem_insert_tweets_of_mem db ts it rc r hr, hid⟩)
    · exact List.mem_append_right _ h
  · apply List.mem_append_left
    apply insertLoop_mem_ids _ _ _ _ _ _ ht
    simp only [DB.select_unseen_status_ids_from, List.mem_filter, List.mem_dedup,
      List.elem_eq_mem, decide_not, Bool.not_eq_eq_eq_not, Bool.not_true,
      decide_eq_false_iff_not, decide_eq_true_eq]
    exact ⟨List.mem_map.mpr ⟨t, ht, rfl⟩, h⟩

theorem insert_tweets_noop (db : DB) (ts : List Tweet) (it : Bool) (rc : String)
    (h : ∀ t ∈ ts, t.id ∈ db.seenStatusIds) : db.insert_tweets ts it rc = (db, 0) := by
  have hunseen : db.select_unseen_status_ids_from (ts.map (fun t => t.id)) = [] := by
    rw [DB.select_unseen_status_ids_from, List.filter_eq_nil_iff]
    intro a ha
    simp only [List.mem_dedup, List.mem_map] at ha
    obtain ⟨t, ht, rfl⟩ := ha
    simp only [List.elem_eq_mem, decide_not, Bool.not_eq_eq_eq_not, Bool.not_true,
      decide_eq_false_iff_not, not_not, decide_eq_true_eq]
    exact h t ht
  simp only [DB.insert_tweets]
  rw [hunseen, insertLoop_unseen_nil]

/-! ## Lemmas about pruning -/

theorem insertOrIgnorePrunedRow_neg (rows : List PrunedRow) (row : PrunedRow)
    (h : ¬ ∃ p ∈ rows, p.status_id = row.status_id) :
    insertOrIgnorePrunedRow rows row = rows ++ [row] := by
  simp only [insertOrIgnorePrunedRow, List.any_eq_true, beq_iff_eq]
  rw [if_neg]
  simpa using h

theorem pruneLoop_cons_pos (r : TweetRow) (rest tw : List TweetRow)
    (pr : List PrunedRow) (t : String) (n : Nat) (h : rowPrunable r = true) :
    pruneLoop (r :: rest) tw pr t n =
      pruneLoop rest (tw.filter (fun x => x.status_id ≠ r.status_id))
        (insertOrIgnorePrunedRow pr (toPrunedRow r t)) t (n + 1) := by
  simp [pruneLoop, h]

theorem pruneLoop_cons_neg (r : TweetRow) (rest tw : List TweetRow)
    (pr : List PrunedRow) (t : String) (n : Nat) (h : rowPrunable r = false) :
    pruneLoop (r :: rest) tw pr t n = pruneLoop rest tw pr t n := by
  simp [pruneLoop, h]

theorem removeByStatusIds_nil (tw : List TweetRow) : removeByStatusIds tw [] = tw := by
  simp [removeByStatusIds]

theorem removeByStatusIds_filter (tw : List TweetRow) (i : Nat) (ids : List Nat) :
    removeByStatusIds (tw.filter (fun x => x.status_id ≠ i)) ids =
      removeByStatusIds tw (i :: ids) := by
  simp only [removeByStatusIds, List.filter_filter]
  apply List.filter_congr
  intro x _
  simp only [List.mem_cons, not_or, decide_not, Bool.decide_and, decide_not]
  cases hd : decide (x.status_id = i) <;> cases hd2 : decide (x.status_id ∈ ids) <;> simp_all

theorem pruneLoop_spec (rows : List TweetRow) :
    ∀ (tw : List TweetRow) (pr : List PrunedRow) (t : String) (n : Nat),
    (rows.map (fun r => r.status_id)).Nodup →
    (∀ r ∈ rows, rowPrunable r = true → ∀ p ∈ pr, p.status_id ≠ r.status_id) →
    pruneLoop rows tw pr t n =
      (removeByStatusIds tw
          ((rows.filter (fun r => rowPrunable r)).map (fun r => r.status_id)),
        pr ++ (rows.filter (fun r => rowPrunable r)).map (fun r => toPrunedRow r t),
        n + (rows.filter (fun r => rowPrunable r)).length) := by
  induction rows with
  | nil =>
    intro tw pr t n _ _
    simp [pruneLoop, removeByStatusIds_nil]
  | cons r rest ih =>
    intro tw pr t n hnd hdisj
    have hnd' : (rest.map (fun r => r.status_id)).Nodup :=
      (List.nodup_cons.mp (by simpa using hnd)).2
    have hr_not : r.status_id ∉ rest.map (fun r => r.status_id) :=
      (List.nodup_cons.mp (by simpa using hnd)).1
    by_cases hp : rowPrunable r = true
    · rw [pruneLoop_cons_pos _ _ _ _ _ _ hp]
      have hins : insertOrIgnorePrunedRow pr (toPrunedRow r t) =
          pr ++ [toPrunedRow r t] := by
        apply insertOrIgnorePrunedRow_neg
        rintro ⟨p, hpmem, hpid⟩
        exact hdisj r (List.mem_cons_self r rest) hp p hpmem (by simpa [toPrunedRow] using hpid)
      rw [hins]
      have hdisj' : ∀ r' ∈ rest, rowPrunable r' = true →
          ∀ p ∈ pr ++ [toPrunedRow r t], p.status_id ≠ r'.status_id := by
        intro r' hr' hp' p hpmem
        rcases List.mem_append.mp hpmem with hpmem | hpmem
        · exact hdisj r' (List.mem_cons_of_mem _ hr') hp' p hpmem
        · simp only [List.mem_singleton] at hpmem
          subst hpmem
          simp only [toPrunedRow]
          intro hcontra
          exact hr_not (List.mem_map.mpr ⟨r', hr', hcontra.symm⟩)
      rw [ih _ _ t (n + 1) hnd' hdisj']
      rw [List.filter_cons_of_pos hp]
      refine Prod.ext ?_ (Prod.ext ?_ ?_)
      · simp only [List.map_cons]
        exact removeByStatusIds_filter tw r.status_id _
      · simp [List.append_assoc]
      · simp only [List.length_cons]
        show n + 1 + (rest.filter (fun r => rowPrunable r)).length =
          n + ((rest.filter (fun r => rowPrunable r)).length + 1)
        omega
    · rw [pruneLoop_cons_neg _ _ _ _ _ _ (Bool.not_eq_true _ ▸ hp)]
      rw [ih _ _ t n hnd' (fun r' hr' hp' => hdisj r' (List.mem_cons_of_mem _ hr') hp')]
      rw [List.filter_cons_of_neg (by simpa using hp)]

theorem prune_tweets_eq (db : DB) (t : String)
    (hnd : (db.tweets.map (fun r => r.status_id)).Nodup)
    (hdisj : ∀ r ∈ db.tweets, rowPrunable r = true →
      ∀ p ∈ db.pruned, p.status_id ≠ r.status_id) :
    db.prune_tweets t =
      (⟨db.tweets.filter (fun r => !(rowPrunable r)),
        db.pruned ++ (db.tweets.filter (fun r => rowPrunable r)).map
          (fun r => toPrunedRow r t)⟩,
        (db.tweets.filter (fun r => rowPrunable r)).length) := by
  have htw : removeByStatusIds db.tweets
      ((db.tweets.filter (fun r => rowPrunable r)).map (fun r => r.status_id)) =
      db.tweets.filter (fun r => !(rowPrunable r)) := by
    rw [removeByStatusIds]
    apply List.filter_congr
    intro x hx
    by_cases hp : rowPrunable x = true
    · have hmem : x.status_id ∈ (db.tweets.filter (fun r => rowPrunable r)).map
          (fun r => r.status_id) :=
        List.mem_map.mpr ⟨x, List.mem_filter.mpr ⟨hx, hp⟩, rfl⟩
      simp [hmem, hp]
    · have hp' : rowPrunable x = false := by simpa using hp
      have hmem : x.status_id ∉ (db.tweets.filter (fun r => rowPrunable r)).map
          (fun r => r.status_id) := by
        intro hmem
        obtain ⟨r, hrmem, hrid⟩ := List.mem_map.mp hmem
        have hreq : r = x :=
          List.inj_on_of_nodup_map hnd (List.mem_filter.mp hrmem).1 hx hrid
        exact hp (hreq ▸ (List.mem_filter.mp hrmem).2)
      simp [hmem, hp']
  have hloop := pruneLoop_spec db.tweets db.tweets db.pruned t 0 hnd hdisj
  simp only [DB.prune_tweets, hloop, htw, Nat.zero_add]

theorem insert_timeline_all_true (db : DB) (ts : List Tweet) (rc : String) :
    ∀ t ∈ ts,
      (∀ r ∈ (db.insert_timeline_tweets ts rc).1.tweets,
        r.status_id = t.id → r.in_timeline = true) ∧
      (∀ p ∈ (db.insert_timeline_tweets ts rc).1.pruned,
        p.status_id = t.id → p.in_timeline = true) := by
  intro t ht
  constructor
  · intro r hr hid
    rcases insertLoop_fst_mem ts (db.promote_in_timeline ts).tweets true rc _ r hr
      with hmem | ⟨_, htrue⟩
    · exact (promote_sets db ts t ht).1 r hmem hid
    · exact htrue
  · intro p hp hid
    exact (promote_sets db ts t ht).2 p
      (by simpa [insert_tweets_pruned] using hp) hid

/-! ## C1: dedup idempotence of insertion -/

/-- C1: insertion is deduplicating and idempotent.  For every store whose
active table has no duplicate ids and every list of tweets: inserting the
list via `insert_loose_tweets` (or `insert_timeline_tweets`) and inserting
it again leaves the store unchanged and reports 0 newly inserted the second
time; the active table still has at most one row per id; and every row added
by the first insert had an id unseen in both tables (the anti-join against
the union of the two tables). -/
theorem insert_twice_dedup_idempotent (db : DB) (ts : List Tweet) (t₁ t₂ : String)
    (hnd : (db.tweets.map (fun r => r.status_id)).Nodup) :
    ((db.insert_loose_tweets ts t₁).1.insert_loose_tweets ts t₂ =
      ((db.insert_loose_tweets ts t₁).1, 0)) ∧
    (((db.insert_loose_tweets ts t₁).1.tweets.map (fun r => r.status_id)).Nodup) ∧
    (∀ r ∈ (db.insert_loose_tweets ts t₁).1.tweets,
      r ∉ db.tweets → r.status_id ∉ db.seenStatusIds) ∧
    ((db.insert_timeline_tweets ts t₁).1.insert_timeline_tweets ts t₂ =
      ((db.insert_timeline_tweets ts t₁).1, 0)) ∧
    (((db.insert_timeline_tweets ts t₁).1.tweets.map (fun r => r.status_id)).Nodup) := by
  refine ⟨?_, ?_, ?_, ?_, ?_⟩
  · exact insert_tweets_noop _ ts false t₂ (insert_tweets_all_seen db ts false t₁)
  · exact insertLoop_ids_nodup ts db.tweets false t₁ _ hnd
  · intro r hr hnotmem
    rcases insertLoop_fst_mem ts db.tweets false t₁ _ r hr with hmem | ⟨hu, _⟩
    · exact absurd hmem hnotmem
    · exact mem_unseen_not_seen db _ _ hu
  · have hseen : ∀ t ∈ ts,
        t.id ∈ (db.insert_timeline_tweets ts t₁).1.seenStatusIds :=
      insert_tweets_all_seen (db.promote_in_timeline ts) ts true t₁
    have hflags := insert_timeline_all_true db ts t₁
    show ((db.insert_timeline_tweets ts t₁).1.promote_in_timeline ts).insert_tweets
        ts true t₂ = ((db.insert_timeline_tweets ts t₁).1, 0)
    rw [promote_noop _ ts hflags]
    exact insert_tweets_noop _ ts true t₂ hseen
  · apply insertLoop_ids_nodup
    rw [promote_tweets_ids]
    exact hnd

/-- Witness for C1 at a concrete store and input batch: the store already
holds id 6, the batch has ids 5, 6, 5, 7; both a repeated loose insert and a
repeated timeline insert return the unchanged store and 0. -/
theorem insert_twice_dedup_idempotent_witness :
    ((exDB1.insert_loose_tweets exTweets "t1").1.insert_loose_tweets exTweets "t2" =
      ((exDB1.insert_loose_tweets exTweets "t1").1, 0)) ∧
    ((exDB1.insert_timeline_tweets exTweets "t1").1.insert_timeline_tweets exTweets "t2" =
      ((exDB1.insert_timeline_tweets exTweets "t1").1, 0)) := by
  have h := insert_twice_dedup_idempotent exDB1 exTweets "t1" "t2" (by decide)
  exact ⟨h.1, h.2.2.2.1⟩

/-! ## C2: prune removes exactly the prunable rows -/

/-- C2: `prune_tweets` removes exactly the prunable active rows, where a row
is prunable iff it has no media, or its media has no photo entries, or it
has photo entries and its photos-downloaded timestamp is set; each removed
row's summary (id, author id, handle, media, in-timeline flag, recorded
timestamp, downloaded timestamp, pruned timestamp — `toPrunedRow`) is copied
into the pruned table, and the count removed is returned.  Hypotheses: the
active ids are unique and no prunable active id is already pruned (the
spec's table invariants). -/
theorem prune_removes_exactly_prunable (db : DB) (t : String)
    (hnd : (db.tweets.map (fun r => r.status_id)).Nodup)
    (hdisj : ∀ r ∈ db.tweets, rowPrunable r = true →
      ∀ p ∈ db.pruned, p.status_id ≠ r.status_id) :
    (∀ r : TweetRow, rowPrunable r = true ↔
      (r.content.media = MediaParse.noMedia ∨
        ∃ es, r.content.media = MediaParse.entities es ∧
          ((∀ e ∈ es, e.type_ ≠ "photo") ∨ r.photos_downloaded_at.isSome = true))) ∧
    db.prune_tweets t =
      (⟨db.tweets.filter (fun r => !(rowPrunable r)),
        db.pruned ++ (db.tweets.filter (fun r => rowPrunable r)).map
          (fun r => toPrunedRow r t)⟩,
        (db.tweets.filter (fun r => rowPrunable r)).length) := by
  refine ⟨?_, prune_tweets_eq db t hnd hdisj⟩
  intro r
  rcases hm : r.content.media with _ | _ | es
  · simp [rowPrunable, is_prunable_row, hm]
  · simp [rowPrunable, is_prunable_row, hm]
  · by_cases ha : es.any (fun e => e.type_ == "photo") = true
    · simp only [rowPrunable, is_prunable_row, hm, ha, if_pos]
      constructor
      · intro hdl
        refine Or.inr ⟨es, rfl, Or.inr hdl⟩
      · rintro (hcontra | ⟨es', hes', hcase⟩)
        · cases hcontra
        · have : es' = es := by
            injection hes' with h
            exact h.symm
          subst this
          rcases hcase with hnophoto | hdl
          · obtain ⟨e, he, hphoto⟩ := List.any_eq_true.mp ha
            exact absurd (beq_iff_eq.mp hphoto) (hnophoto e he)
          · exact hdl
    · simp only [rowPrunable, is_prunable_row, hm, ha, if_neg, Bool.not_eq_true]
      constructor
      · intro _
        refine Or.inr ⟨es, rfl, Or.inl ?_⟩
        intro e he hphoto
        exact ha (List.any_eq_true.mpr ⟨e, he, beq_iff_eq.mpr hphoto⟩)
      · intro _
        trivial

/-- Witness for C2 at the four-row scenario store: prune removes the
no-media, media-without-photos and photos-downloaded rows (ids 10, 11, 12),
returns 3, the pruned table gains exactly those three summaries in order,
and the photos-pending row (id 20) remains active. -/
theorem prune_removes_exactly_prunable_witness :
    (exDB4.prune_tweets "tp").2 = 3 ∧
    (exDB4.prune_tweets "tp").1.tweets.map (fun r => r.status_id) = [20] ∧
    (exDB4.prune_tweets "tp").1.pruned.map (fun p => p.status_id) = [10, 11, 12] := by
  have h := (prune_removes_exactly_prunable exDB4 "tp" (by decide) (by decide)).2
  rw [h]
  exact ⟨by decide, by decide, by decide⟩

/-! ## C5: monotonicity of the in-timeline flag -/

/-- C5: the in-timeline flag is monotonic across the store's mutating
operations: none of `insert_loose_tweets`, `insert_timeline_tweets`,
`prune_tweets` and `set_photos_downloaded_at` ever resets a set flag (an id
whose flag is true somewhere in the store keeps a true flag), and
`insert_timeline_tweets` sets the flag on every row — active or pruned —
whose id is among the supplied tweets (retroactive promotion of pruned rows
included) before its dedup-and-insert, so afterwards every row matching a
supplied id has the flag set.  Hypotheses: unique active ids and active ids
disjoint from pruned ids (the spec's table invariants). -/
theorem in_timeline_monotonic (db : DB) (ts : List Tweet) (rc pt now : String)
    (rowid i : Nat)
    (hnd : (db.tweets.map (fun r => r.status_id)).Nodup)
    (hdisj : ∀ r ∈ db.tweets, ∀ p ∈ db.pruned, r.status_id ≠ p.status_id) :
    (db.inTimelineTrue i = true →
      (db.insert_loose_tweets ts rc).1.inTimelineTrue i = true) ∧
    (db.inTimelineTrue i = true →
      (db.insert_timeline_tweets ts rc).1.inTimelineTrue i = true) ∧
    (db.inTimelineTrue i = true →
      (db.prune_tweets pt).1.inTimelineTrue i = true) ∧
    (db.inTimelineTrue i = true →
      (db.set_photos_downloaded_at rowid now).1.inTimelineTrue i = true) ∧
    (∀ t ∈ ts,
      (∀ r ∈ (db.insert_timeline_tweets ts rc).1.tweets,
        r.status_id = t.id → r.in_timeline = true) ∧
      (∀ p ∈ (db.insert_timeline_tweets ts rc).1.pruned,
        p.status_id = t.id → p.in_timeline = true)) := by
  refine ⟨?_, ?_, ?_, ?_, insert_timeline_all_true db ts rc⟩
  · intro h
    rcases (inTimelineTrue_iff db i).mp h with ⟨r, hr, hid, htrue⟩ | ⟨p, hp, hid, htrue⟩
    · exact (inTimelineTrue_iff _ _).mpr
        (Or.inl ⟨r, mem_insert_tweets_of_mem db ts false rc r hr, hid, htrue⟩)
    · exact (inTimelineTrue_iff _ _).mpr (Or.inr ⟨p, hp, hid, htrue⟩)
  · intro h
    have h' := promote_keeps_true db ts i h
    rcases (inTimelineTrue_iff _ i).mp h' with ⟨r, hr, hid, htrue⟩ | ⟨p, hp, hid, htrue⟩
    · exact (inTimelineTrue_iff _ _).mpr
        (Or.inl ⟨r, mem_insert_tweets_of_mem _ ts true rc r hr, hid, htrue⟩)
    · exact (inTimelineTrue_iff _ _).mpr (Or.inr ⟨p, hp, hid, htrue⟩)
  · intro h
    have hdisj' : ∀ r ∈ db.tweets, rowPrunable r = true →
        ∀ p ∈ db.pruned, p.status_id ≠ r.status_id :=
      fun r hr _ p hp => (hdisj r hr p hp).symm
    rw [prune_tweets_eq db pt hnd hdisj']
    rcases (inTimelineTrue_iff db i).mp h with ⟨r, hr, hid, htrue⟩ | ⟨p, hp, hid, htrue⟩
    · by_cases hpr : rowPrunable r = true
      · refine (inTimelineTrue_iff _ _).mpr (Or.inr ⟨toPrunedRow r pt, ?_, hid, htrue⟩)
        exact List.mem_append_right _
          (List.mem_map.mpr ⟨r, List.mem_filter.mpr ⟨hr, hpr⟩, rfl⟩)
      · refine (inTimelineTrue_iff _ _).mpr (Or.inl ⟨r, ?_, hid, htrue⟩)
        exact List.mem_filter.mpr ⟨hr, by simpa using hpr⟩
    · exact (inTimelineTrue_iff _ _).mpr (Or.inr ⟨p, List.mem_append_left _ hp, hid, htrue⟩)
  · intro h
    rcases (inTimelineTrue_iff db i).mp h with ⟨r, hr, hid, htrue⟩ | ⟨p, hp, hid, htrue⟩
    · apply (inTimelineTrue_iff _ _).mpr
      apply Or.inl
      by_cases hrow : r.rowid = rowid
      · exact ⟨{ r with photos_downloaded_at := some now },
          List.mem_map.mpr ⟨r, hr, by simp [hrow]⟩, hid, htrue⟩
      · exact ⟨r, List.mem_map.mpr ⟨r, hr, by simp [hrow]⟩, hid, htrue⟩
    · exact (inTimelineTrue_iff _ _).mpr (Or.inr ⟨p, hp, hid, htrue⟩)

/-- Witness for C5 at a concrete store: pruning keeps id 8's flag true while
moving its row to the pruned table; a loose insert keeps it true; and a
timeline insert of id 9 retroactively promotes the pruned row 9. -/
theorem in_timeline_monotonic_witness :
    (exDB5.prune_tweets "tp").1.inTimelineTrue 8 = true ∧
    (exDB5.insert_loose_tweets [exTweet 9] "t1").1.inTimelineTrue 8 = true ∧
    (exDB5.insert_timeline_tweets [exTweet 9] "t1").1.inTimelineTrue 9 = true := by
  have h := in_timeline_monotonic exDB5 [exTweet 9] "t1" "tp" "tn" 1 8
    (by decide) (by decide)
  have h9 := in_timeline_monotonic exDB5 [exTweet 9] "t1" "tp" "tn" 1 9
    (by decide) (by decide)
  refine ⟨h.2.2.1 (by decide), h.1 (by decide), ?_⟩
  have hall := (h9.2.2.2.2 (exTweet 9) (List.mem_cons_self _ _)).2
  apply (inTimelineTrue_iff _ _).mpr
  apply Or.inr
  have hp9 : (⟨9, "1", "anon", some .noMedia, true, some "t0", none, "t0"⟩ : PrunedRow) ∈
      (exDB5.insert_timeline_tweets [exTweet 9] "t1").1.pruned := by decide
  exact ⟨_, hp9, rfl, hall _ hp9 rfl⟩

/-! ## C3: select_not_downloaded_photos and malformed media -/

theorem build_photoset_error_iff (rowid : Nat) (sn ids : String) (m : MediaParse) :
    build_photoset rowid sn ids m = .error () ↔ m = .malformed := by
  constructor
  · intro h
    cases m with
    | malformed => rfl
    | noMedia => exact Except.noConfusion h
    | entities es =>
      simp only [build_photoset] at h
      split at h
      · exact Except.noConfusion h
      · exact Except.noConfusion h
  · intro h
    subst h
    rfl

theorem collectPhotosets_ok (rows : List TweetRow)
    (h : ∀ r ∈ rows, r.content.media ≠ .malformed) :
    collectPhotosets rows = .ok (rows.filterMap (fun r =>
      match build_photoset r.rowid r.content.screen_name r.content.id_str
          r.content.media with
      | .ok o => o
      | .error _ => none)) := by
  induction rows with
  | nil => rfl
  | cons r rest ih =>
    have hr : r.content.media ≠ .malformed := h r (List.mem_cons_self r rest)
    have hrest := ih (fun x hx => h x (List.mem_cons_of_mem _ hx))
    rcases hb : build_photoset r.rowid r.content.screen_name r.content.id_str
        r.content.media with e | o
    · obtain rfl : e = () := rfl
      exact absurd ((build_photoset_error_iff _ _ _ _).mp hb) hr
    · rw [List.filterMap_cons]
      unfold collectPhotosets
      rcases o with _ | ps
      · rw [hb]
        exact hrest
      · rw [hb, hrest]

theorem collectPhotosets_error (rows : List TweetRow)
    (h : ∃ r ∈ rows, r.content.media = .malformed) :
    collectPhotosets rows = .error () := by
  induction rows with
  | nil => obtain ⟨r, hr, _⟩ := h; cases hr
  | cons r rest ih =>
    obtain ⟨r', hr', hm⟩ := h
    rcases hb : build_photoset r.rowid r.content.screen_name r.content.id_str
        r.content.media with e | o
    · obtain rfl : e = () := rfl
      unfold collectPhotosets
      rw [hb]
    · rcases List.mem_cons.mp hr' with rfl | hmem
      · have hconc := (build_photoset_error_iff r'.rowid r'.content.screen_name
          r'.content.id_str r'.content.media).mpr hm
        rw [hb] at hconc
        exact Except.noConfusion hconc
      · have herr := ih ⟨r', hmem, hm⟩
        unfold collectPhotosets
        rcases o with _ | ps
        · rw [hb]
          exact herr
        · rw [hb, herr]

/-- C3 (amended): `select_not_downloaded_photos` scans the rows whose
photos-downloaded timestamp is null and returns their photosets (rows whose
media decodes to no photos contribute nothing), **but** a row whose stored
media field fails to decode is fatal for the whole call: the function
returns an error instead of skipping that row and continuing. -/
theorem select_not_downloaded_fatal_on_malformed (db : DB) :
    ((∀ r ∈ db.tweets, r.photos_downloaded_at.isNone = true →
        r.content.media ≠ .malformed) →
      db.select_not_downloaded_photos =
        .ok ((db.tweets.filter (fun r => r.photos_downloaded_at.isNone)).filterMap
          (fun r =>
            match build_photoset r.rowid r.content.screen_name r.content.id_str
                r.content.media with
            | .ok o => o
            | .error _ => none))) ∧
    ((∃ r ∈ db.tweets, r.photos_downloaded_at.isNone = true ∧
        r.content.media = .malformed) →
      db.select_not_downloaded_photos = .error ()) := by
  constructor
  · intro h
    apply collectPhotosets_ok
    intro r hr
    exact h r (List.mem_filter.mp hr).1 (List.mem_filter.mp hr).2
  · rintro ⟨r, hr, hn, hm⟩
    apply collectPhotosets_error
    exact ⟨r, List.mem_filter.mpr ⟨hr, hn⟩, hm⟩

/-- Counterexample for C3 as stated: on a store with a pending
malformed-media row and a pending well-formed photo row, the call returns an
error for the whole scan instead of the remaining row's photoset. -/
theorem select_not_downloaded_malformed_counterexample :
    exDBmal.select_not_downloaded_photos = Except.error () ∧
    exDBmal.select_not_downloaded_photos ≠
      Except.ok [⟨2, "anon", "20", ["u20"]⟩] := by
  refine ⟨rfl, ?_⟩
  intro h
  exact Except.noConfusion
    ((rfl : Except.error () = exDBmal.select_not_downloaded_photos).trans h)

/-- Witness for C3 (amended) at two concrete stores: the four-row store has
no malformed media and yields exactly the pending row's photoset; the store
with a pending malformed row makes the whole call fail. -/
theorem select_not_downloaded_fatal_on_malformed_witness :
    exDB4.select_not_downloaded_photos = Except.ok [⟨4, "anon", "20", ["u20"]⟩] ∧
    exDBmal.select_not_downloaded_photos = Except.error () := by
  have h4 := select_not_downloaded_fatal_on_malformed exDB4
  have hmal := select_not_downloaded_fatal_on_malformed exDBmal
  refine ⟨(h4.1 (by decide)).trans rfl, hmal.2 ?_⟩
  exact ⟨⟨1, 30, ⟨"1", "anon", "30", .malformed⟩, false, "t0", none⟩,
    by decide, by decide, rfl⟩

/-! ## C6, C7: the pagination loop -/

theorem fetch_loop_fatal (feed : Nat → Page) (K : Nat)
    (hrem : (feed K).remaining = 0) (hne : (feed K).tweets ≠ []) :
    ∀ (cnt page : Nat) (acc : List Tweet) (rmd : Bool),
    page ≤ K → K < page + cnt →
    (∀ j, page ≤ j → j < K → (feed j).tweets ≠ [] ∧ (feed j).remaining ≠ 0) →
    fetch_loop feed page cnt acc rmd = .fatal := by
  intro cnt
  induction cnt with
  | zero =>
    intro page acc rmd h1 h2 _
    omega
  | succ cnt ih =>
    intro page acc rmd h1 h2 hgood
    by_cases hpk : page = K
    · subst hpk
      have hie : (feed page).tweets.isEmpty = false := by
        cases hT : (feed page).tweets
        · exact absurd hT hne
        · rfl
      have hc : ((feed page).remaining == 0 && !(feed page).tweets.isEmpty) = true := by
        rw [hrem, hie]
        rfl
      simp only [fetch_loop]
      rw [if_pos hc]
    · have hlt : page < K := lt_of_le_of_ne h1 hpk
      obtain ⟨hne', hrem'⟩ := hgood page (le_refl page) hlt
      have hie : (feed page).tweets.isEmpty = false := by
        cases hT : (feed page).tweets
        · exact absurd hT hne'
        · rfl
      have hb0 : ((feed page).remaining == 0) = false := by
        simpa using hrem'
      have hc : ((feed page).remaining == 0 && !(feed page).tweets.isEmpty) = false := by
        rw [hb0]
        rfl
      simp only [fetch_loop]
      rw [if_neg (by rw [hc]; exact Bool.false_ne_true),
        if_neg (by rw [hie]; exact Bool.false_ne_true)]
      exact ih (page + 1) _ _ hlt (by omega)
        (fun j hj1 hj2 => hgood j (by omega) hj2)

theorem fetch_loop_completes (feed : Nat → Page) :
    ∀ (cnt page : Nat) (acc : List Tweet) (rmd : Bool),
    (∀ j, page ≤ j → j < page + cnt → (feed j).tweets ≠ [] ∧ (feed j).remaining ≠ 0) →
    fetch_loop feed page cnt acc rmd =
      .completed (acc ++ (List.range' page cnt).flatMap (fun j => (feed j).tweets))
        (if cnt = 0 then rmd else decide (MAX_DEPTH ≤ page + cnt - 1)) := by
  intro cnt
  induction cnt with
  | zero =>
    intro page acc rmd _
    simp [fetch_loop]
  | succ cnt ih =>
    intro page acc rmd hgood
    obtain ⟨hne', hrem'⟩ := hgood page (le_refl _) (by omega)
    have hie : (feed page).tweets.isEmpty = false := by
      cases hT : (feed page).tweets
      · exact absurd hT hne'
      · rfl
    have hb0 : ((feed page).remaining == 0) = false := by
      simpa using hrem'
    have hc : ((feed page).remaining == 0 && !(feed page).tweets.isEmpty) = false := by
      rw [hb0]
      rfl
    simp only [fetch_loop]
    rw [if_neg (by rw [hc]; exact Bool.false_ne_true),
      if_neg (by rw [hie]; exact Bool.false_ne_true)]
    rw [ih (page + 1) (acc ++ (feed page).tweets) (decide (MAX_DEPTH ≤ page))
      (fun j hj1 hj2 => hgood j (by omega) (by omega))]
    congr 1
    · rw [List.range'_succ, List.flatMap_cons, List.append_assoc]
    · rcases Nat.eq_zero_or_pos cnt with rfl | hpos
      · have harith : page + 1 - 1 = page := by omega
        simp [harith]
      · rw [if_neg (by omega), if_neg (by omega)]
        have harith : page + 1 + cnt - 1 = page + (cnt + 1) - 1 := by omega
        rw [harith]

/-- C6 (amended): during a per-author timeline fetch, the rate-limit abort
applies after every page of the inner paging loop (pages 2 through the
requested depth): if such a page returns at least one record with the
remaining counter at 0, the author's fetch aborts as a fatal error.  Page 1
is exempt: its rate-limit status is only reported, never fatal (see the
counterexample). -/
theorem rate_limit_fatal_in_page_loop (db : DB) (feed : Nat → Page) (uses : Bool)
    (depth k : Nat) (now : String)
    (h2 : 2 ≤ k) (hk : k ≤ depth)
    (hbefore : ∀ j, 2 ≤ j → j < k → (feed j).tweets ≠ [] ∧ (feed j).remaining ≠ 0)
    (hrem : (feed k).remaining = 0) (hne : (feed k).tweets ≠ [])
    (hstart : page1_stop db feed uses = false) :
    from_user_one db feed uses depth now = FetchOutcome.fatal := by
  have hloop : fetch_loop feed 2 (depth - 1) (feed 1).tweets false = .fatal :=
    fetch_loop_fatal feed k hrem hne (depth - 1) 2 (feed 1).tweets false h2
      (by omega) hbefore
  simp only [from_user_one, hstart, Bool.false_eq_true, if_false, hloop]

/-- Counterexample for C6 as stated: a feed whose first page returns one
record with the remaining counter already at 0; at depth 1 the fetch does
not abort — it completes (warning flag false) and is not fatal. -/
theorem rate_limit_first_page_counterexample :
    (from_user_one ⟨[], []⟩ exFeedC6 false 1 "t").warnedFlag = some false ∧
    from_user_one ⟨[], []⟩ exFeedC6 false 1 "t" ≠ FetchOutcome.fatal := by
  refine ⟨rfl, fun h => ?_⟩
  exact absurd (congrArg FetchOutcome.warnedFlag h) (by decide)

/-- Witness for C6 (amended): with a healthy page 2 and an exhausted
nonempty page 3, a depth-5 fetch is fatal. -/
theorem rate_limit_fatal_in_page_loop_witness :
    from_user_one ⟨[], []⟩ exFeedC6b false 5 "t" = FetchOutcome.fatal := by
  apply rate_limit_fatal_in_page_loop ⟨[], []⟩ exFeedC6b false 5 3 "t"
    (by omega) (by omega) ?_ (by decide) (by decide) (by decide)
  intro j hj1 hj2
  have hj : j = 2 := by omega
  subst hj
  exact ⟨by decide, by decide⟩

/-- C7 (amended): if the paging loop runs all requested pages without a stop
condition (no since-id stop on page 1, and every page 2..depth nonempty with
budget left), the fetch completes successfully — it is not fatal, the
collected records are written via `insert_timeline_tweets` — and the
"longer than expected" warning is emitted iff the final page number reaches
`MAX_DEPTH`, i.e. iff the loop ran (depth ≥ 2) and depth ≥ 20; for any
smaller caller-supplied depth no warning is emitted. -/
theorem depth_warning_only_at_max (db : DB) (feed : Nat → Page) (uses : Bool)
    (depth : Nat) (now : String)
    (hstop : page1_stop db feed uses = false)
    (hpages : ∀ j, 2 ≤ j → j ≤ depth → (feed j).tweets ≠ [] ∧ (feed j).remaining ≠ 0) :
    from_user_one db feed uses depth now =
      FetchOutcome.done (decide (2 ≤ depth ∧ MAX_DEPTH ≤ depth))
        ((feed 1).tweets ++
          (List.range' 2 (depth - 1)).flatMap (fun j => (feed j).tweets))
        (db.insert_timeline_tweets
          ((feed 1).tweets ++
            (List.range' 2 (depth - 1)).flatMap (fun j => (feed j).tweets)) now).2
        (db.insert_timeline_tweets
          ((feed 1).tweets ++
            (List.range' 2 (depth - 1)).flatMap (fun j => (feed j).tweets)) now).1 := by
  have hloop := fetch_loop_completes feed (depth - 1) 2 (feed 1).tweets false
    (fun j hj1 hj2 => hpages j hj1 (by omega))
  have hw : (if depth - 1 = 0 then false
        else decide (MAX_DEPTH ≤ 2 + (depth - 1) - 1)) =
      decide (2 ≤ depth ∧ MAX_DEPTH ≤ depth) := by
    rcases le_or_lt depth 1 with hle | hgt
    · rw [if_pos (by omega)]
      have hnot : ¬(2 ≤ depth ∧ MAX_DEPTH ≤ depth) := by
        rintro ⟨hc, _⟩
        omega
      simp [hnot]
    · rw [if_neg (by omega)]
      have harith : 2 + (depth - 1) - 1 = depth := by omega
      rw [harith]
      apply decide_eq_decide.mpr
      constructor
      · intro hmax
        exact ⟨by omega, hmax⟩
      · exact fun hand => hand.2
  rw [← hw]
  simp only [from_user_one, hstop, Bool.false_eq_true, if_false, hloop]

/-- Counterexample for C7 as stated: a healthy feed run at depth 2 finishes
all 2 pages without any stop condition, yet no "longer than expected"
warning is emitted (the flag is false); the same feed at depth 20 does get
the warning. -/
theorem depth_warning_missing_counterexample :
    (from_user_one ⟨[], []⟩ exFeedC7 false 2 "t").warnedFlag = some false ∧
    (from_user_one ⟨[], []⟩ exFeedC7 false 20 "t").warnedFlag = some true := by
  exact ⟨rfl, rfl⟩

/-- Witness for C7 (amended) at depth 2 and depth 20 on a healthy feed: the
fetch completes un-warned at depth 2 and warned at depth 20. -/
theorem depth_warning_only_at_max_witness :
    (from_user_one ⟨[], []⟩ exFeedC7 false 2 "t2").warnedFlag = some false ∧
    (from_user_one ⟨[], []⟩ exFeedC7 false 20 "t2").warnedFlag = some true := by
  have h2 := depth_warning_only_at_max ⟨[], []⟩ exFeedC7 false 2 "t2" (by decide)
    (fun j _ _ => ⟨by simp [exFeedC7], by simp [exFeedC7]⟩)
  have h20 := depth_warning_only_at_max ⟨[], []⟩ exFeedC7 false 20 "t2" (by decide)
    (fun j _ _ => ⟨by simp [exFeedC7], by simp [exFeedC7]⟩)
  rw [h2, h20]
  exact ⟨rfl, rfl⟩

/-! ## C9, C10: destination naming -/

theorem digitChar_isDigit (m : Nat) (h : m < 10) : (Nat.digitChar m).isDigit = true := by
  interval_cases m <;> decide

theorem toDigitsCore_digits (f : Nat) :
    ∀ (n : Nat) (acc : List Char), (∀ c ∈ acc, c.isDigit = true) →
    ∀ c ∈ Nat.toDigitsCore 10 f n acc, c.isDigit = true := by
  induction f with
  | zero =>
    intro n acc hacc c hc
    exact hacc c (by simpa [Nat.toDigitsCore] using hc)
  | succ f ih =>
    intro n acc hacc c hc
    simp only [Nat.toDigitsCore] at hc
    have hd : (Nat.digitChar (n % 10)).isDigit = true :=
      digitChar_isDigit _ (Nat.mod_lt _ (by omega))
    by_cases h0 : n / 10 = 0
    · rw [if_pos h0] at hc
      rcases List.mem_cons.mp hc with rfl | hmem
      · exact hd
      · exact hacc c hmem
    · rw [if_neg h0] at hc
      refine ih (n / 10) (Nat.digitChar (n % 10) :: acc) ?_ c hc
      intro c' hc'
      rcases List.mem_cons.mp hc' with rfl | hm
      · exact hd
      · exact hacc c' hm

theorem repr_digits (n : Nat) : ∀ c ∈ (Nat.repr n).data, c.isDigit = true := by
  intro c hc
  exact toDigitsCore_digits (n + 1) n [] (by intro c' hc'; cases hc') c hc

theorem toDigitsCore_acc (f : Nat) : ∀ (n : Nat) (acc : List Char),
    Nat.toDigitsCore 10 f n acc = Nat.toDigitsCore 10 f n [] ++ acc := by
  induction f with
  | zero =>
    intro n acc
    rfl
  | succ f ih =>
    intro n acc
    simp only [Nat.toDigitsCore]
    by_cases h0 : n / 10 = 0
    · rw [if_pos h0, if_pos h0]
      rfl
    · rw [if_neg h0, if_neg h0, ih (n / 10) [Nat.digitChar (n % 10)],
        ih (n / 10) (Nat.digitChar (n % 10) :: acc), List.append_assoc]
      rfl

theorem digitChar_val (m : Nat) (h : m < 10) :
    (Nat.digitChar m).toNat - Char.toNat '0' = m := by
  interval_cases m <;> decide

theorem decimalVal_append_singleton (l : List Char) (c : Char) :
    decimalVal (l ++ [c]) = decimalVal l * 10 + (c.toNat - Char.toNat '0') := by
  simp [decimalVal, List.foldl_append]

theorem toDigitsCore_val (f : Nat) : ∀ (n : Nat), n < 10 ^ f →
    decimalVal (Nat.toDigitsCore 10 f n []) = n := by
  induction f with
  | zero =>
    intro n hn
    interval_cases n
    rfl
  | succ f ih =>
    intro n hn
    simp only [Nat.toDigitsCore]
    by_cases h0 : n / 10 = 0
    · rw [if_pos h0]
      have hlt : n < 10 := by omega
      have hdv : decimalVal [Nat.digitChar (n % 10)] = n % 10 := by
        show 0 * 10 + ((Nat.digitChar (n % 10)).toNat - Char.toNat '0') = n % 10
        rw [digitChar_val _ (Nat.mod_lt _ (by omega))]
        omega
      rw [hdv, Nat.mod_eq_of_lt hlt]
    · rw [if_neg h0, toDigitsCore_acc]
      rw [decimalVal_append_singleton]
      have hdiv : n / 10 < 10 ^ f := by
        have h1 : n < 10 ^ f * 10 := by
          rw [← pow_succ]
          exact hn
        exact (Nat.div_lt_iff_lt_mul (by omega)).mpr h1
      rw [ih (n / 10) hdiv, digitChar_val _ (Nat.mod_lt _ (by omega))]
      omega

theorem repr_injective (n m : Nat) (h : Nat.repr n = Nat.repr m) : n = m := by
  have hdata : Nat.toDigitsCore 10 (n + 1) n [] = Nat.toDigitsCore 10 (m + 1) m [] :=
    congrArg String.data h
  have hn : n < 10 ^ (n + 1) :=
    lt_of_lt_of_le (Nat.lt_pow_self (by omega) n) (Nat.pow_le_pow_right (by omega) (by omega))
  have hm : m < 10 ^ (m + 1) :=
    lt_of_lt_of_le (Nat.lt_pow_self (by omega) m) (Nat.pow_le_pow_right (by omega) (by omega))
  have := toDigitsCore_val (n + 1) n hn
  rw [hdata, toDigitsCore_val (m + 1) m hm] at this
  omega

theorem string_data_inj (s t : String) (h : s.data = t.data) : s = t := by
  cases s
  cases t
  exact congrArg String.mk h

theorem digits_sep_inj : ∀ (xs₁ xs₂ ys₁ ys₂ : List Char),
    (∀ c ∈ xs₁, c.isDigit = true) → (∀ c ∈ xs₂, c.isDigit = true) →
    xs₁ ++ '-' :: ys₁ = xs₂ ++ '-' :: ys₂ → xs₁ = xs₂ ∧ ys₁ = ys₂ := by
  intro xs₁
  induction xs₁ with
  | nil =>
    intro xs₂ ys₁ ys₂ _ h2 heq
    cases xs₂ with
    | nil => simpa using heq
    | cons b bs =>
      simp only [List.nil_append, List.cons_append, List.cons.injEq] at heq
      have hb := h2 b (List.mem_cons_self b bs)
      rw [← heq.1] at hb
      exact absurd hb (by decide)
  | cons a as ih =>
    intro xs₂ ys₁ ys₂ h1 h2 heq
    cases xs₂ with
    | nil =>
      simp only [List.nil_append, List.cons_append, List.cons.injEq] at heq
      have ha := h1 a (List.mem_cons_self a as)
      rw [heq.1] at ha
      exact absurd ha (by decide)
    | cons b bs =>
      simp only [List.cons_append, List.cons.injEq] at heq
      obtain ⟨rfl, heq2⟩ := heq
      obtain ⟨hxs, hys⟩ := ih bs ys₁ ys₂ (fun c hc => h1 c (List.mem_cons_of_mem _ hc))
        (fun c hc => h2 c (List.mem_cons_of_mem _ hc)) heq2
      exact ⟨by rw [hxs], hys⟩

theorem photoPathString_inj (h id₁ id₂ name₁ name₂ : String) (idx₁ idx₂ : Nat)
    (hid₁ : ∀ c ∈ id₁.data, c.isDigit = true)
    (hid₂ : ∀ c ∈ id₂.data, c.isDigit = true)
    (heq : photoPathString h id₁ idx₁ name₁ = photoPathString h id₂ idx₂ name₂) :
    id₁ = id₂ ∧ idx₁ = idx₂ ∧ name₁ = name₂ := by
  have hdata := congrArg String.data heq
  simp only [photoPathString, String.data_append] at hdata
  simp only [List.append_assoc, List.cons_append, List.singleton_append,
    List.nil_append, List.cons.injEq, true_and] at hdata
  have hdata2 := List.append_cancel_left hdata
  simp only [List.cons.injEq, true_and] at hdata2
  obtain ⟨hids, hrest⟩ := digits_sep_inj id₁.data id₂.data _ _ hid₁ hid₂ hdata2
  simp only [List.cons.injEq, true_and] at hrest
  obtain ⟨hreprs, hnames⟩ := digits_sep_inj (Nat.repr idx₁).data (Nat.repr idx₂).data
    _ _ (repr_digits idx₁) (repr_digits idx₂) hrest
  exact ⟨string_data_inj id₁ id₂ hids,
    repr_injective idx₁ idx₂ (string_data_inj _ _ hreprs),
    string_data_inj name₁ name₂ hnames⟩

/-- C9: the destination name is a pure, deterministic function of (author
handle, record id string, 1-based index, remote base name) — identical
inputs always yield the identical path — it follows the documented layout,
`build_photo_path` computes exactly it on the URL's last path segment, and
for a fixed author handle it is collision-free: two numeric record-id
strings with indices and any remote base names yield the same path only when
the ids, the indices and the names all coincide. -/
theorem build_photo_path_pure_and_injective (ps : Photoset) (url : String)
    (segs : List String) (bn h id₁ id₂ name₁ name₂ : String) (idx idx₁ idx₂ : Nat)
    (hurl : urlPathSegments url = some segs) (hlast : segs.getLast? = some bn)
    (hid₁ : ∀ c ∈ id₁.data, c.isDigit = true)
    (hid₂ : ∀ c ∈ id₂.data, c.isDigit = true) :
    (photoPathString h id₁ idx₁ name₁ =
      "@" ++ h ++ "-" ++ id₁ ++ "-img" ++ Nat.repr idx₁ ++ "-" ++ name₁) ∧
    (build_photo_path ps url idx =
      some (photoPathString ps.screen_name ps.id_str idx bn)) ∧
    (photoPathString h id₁ idx₁ name₁ = photoPathString h id₂ idx₂ name₂ →
      id₁ = id₂ ∧ idx₁ = idx₂ ∧ name₁ = name₂) := by
  refine ⟨rfl, ?_, photoPathString_inj h id₁ id₂ name₁ name₂ idx₁ idx₂ hid₁ hid₂⟩
  simp only [build_photo_path, hurl, hlast]

/-- Witness for C9 at concrete inputs: the layout is the documented one, and
two collision attempts — a neighbouring record id, and an index/base-name
boundary shift — both yield distinct paths. -/
theorem build_photo_path_pure_and_injective_witness :
    photoPathString "anon" "123" 1 "a.jpg" = "@anon-123-img1-a.jpg" ∧
    build_photo_path ⟨4, "anon", "20", ["https://h/p/a.jpg"]⟩ "https://h/p/a.jpg" 1 =
      some "@anon-20-img1-a.jpg" ∧
    photoPathString "anon" "123" 1 "x.jpg" ≠ photoPathString "anon" "124" 1 "x.jpg" ∧
    photoPathString "anon" "123" 1 "2-x.jpg" ≠ photoPathString "anon" "123" 12 "x.jpg" := by
  have hlay := build_photo_path_pure_and_injective
    ⟨4, "anon", "20", ["https://h/p/a.jpg"]⟩ "https://h/p/a.jpg" ["p", "a.jpg"]
    "a.jpg" "anon" "123" "123" "a.jpg" "a.jpg" 1 1 1 (by decide) (by decide)
    (by decide) (by decide)
  have hbase := build_photo_path_pure_and_injective
    ⟨4, "anon", "20", ["https://h/p/a.jpg"]⟩ "https://h/p/a.jpg" ["p", "a.jpg"]
    "a.jpg" "anon" "123" "124" "x.jpg" "x.jpg" 1 1 1 (by decide) (by decide)
    (by decide) (by decide)
  have hbound := build_photo_path_pure_and_injective
    ⟨4, "anon", "20", ["https://h/p/a.jpg"]⟩ "https://h/p/a.jpg" ["p", "a.jpg"]
    "a.jpg" "anon" "123" "123" "2-x.jpg" "x.jpg" 1 1 12 (by decide) (by decide)
    (by decide) (by decide)
  refine ⟨hlay.1.trans rfl, hlay.2.1.trans rfl, fun heq => ?_, fun heq => ?_⟩
  · obtain ⟨hc, _, _⟩ := hbase.2.2 heq
    exact absurd hc (by decide)
  · obtain ⟨_, hc, _⟩ := hbound.2.2 heq
    exact absurd hc (by decide)

theorem urlPathSegments_ne_nil (url : String) (segs : List String)
    (h : urlPathSegments url = some segs) : segs ≠ [] := by
  unfold urlPathSegments at h
  split at h
  · exact Option.noConfusion h
  · split at h
    · split at h
      · cases h
        simp
      · cases h
        simp
      · cases h
        simp
    · exact Option.noConfusion h

/-- C10: `build_photo_path` is partial at its public interface: it returns a
path exactly when the photo URL parses (its path then always has a last
segment), and for inputs that do not parse as absolute URLs — for example
"not a url", or the empty string — it panics (modelled as `none`) rather
than returning an error value. -/
theorem build_photo_path_partial (ps : Photoset) (url : String) (idx : Nat) :
    ((build_photo_path ps url idx).isSome = (urlPathSegments url).isSome) ∧
    build_photo_path ps "not a url" 1 = none ∧
    build_photo_path ps "" 1 = none := by
  refine ⟨?_, rfl, rfl⟩
  rcases hu : urlPathSegments url with _ | segs
  · simp [build_photo_path, hu]
  · have hne := urlPathSegments_ne_nil url segs hu
    rcases hlast : segs.getLast? with _ | bn
    · exact absurd (List.getLast?_eq_none_iff.mp hlast) hne
    · simp [build_photo_path, hu, hlast]

/-! ## C8: the FileWriter discipline -/

theorem mem_fsCreate (fs : List String) (p q : String) :
    p ∈ fsCreate fs q ↔ (p = q ∨ p ∈ fs) := by
  unfold fsCreate
  by_cases h : q ∈ fs
  · rw [if_pos (by simpa using h)]
    constructor
    · exact Or.inr
    · rintro (rfl | hp)
      exacts [h, hp]
  · rw [if_neg (by simpa using h)]
    exact List.mem_cons

theorem mem_fsRemove (fs : List String) (p q : String) :
    p ∈ fsRemove fs q ↔ (p ∈ fs ∧ p ≠ q) := by
  simp [fsRemove]

theorem fsRemove_of_not_mem (fs : List String) (q : String) (h : q ∉ fs) :
    fsRemove fs q = fs := by
  unfold fsRemove
  apply List.filter_eq_self.mpr
  intro a ha
  simp only [decide_eq_true_eq]
  rintro rfl
  exact h ha

theorem make_part_path_ne (dest : String) : make_part_path dest ≠ dest := by
  intro h
  have hlen := congrArg String.length h
  rw [make_part_path, String.length_append] at hlen
  have h5 : (".part" : String).length = 5 := rfl
  rw [h5] at hlen
  omega

theorem discard_part_file (F : List String) (W : FileWriter) :
    (discard_part F W).2.file = .Closed := by
  unfold discard_part
  split <;> rfl

theorem discard_part_fst_of_opened (F : List String) (W : FileWriter) (p d : String)
    (h : W.file = .Opened p d) : (discard_part F W).1 = fsRemove F p := by
  obtain ⟨wf, io⟩ := W
  simp only at h
  subst h
  rfl

theorem discard_part_fst_of_not_opened (F : List String) (W : FileWriter)
    (h : ∀ p d, W.file ≠ .Opened p d) : (discard_part F W).1 = F := by
  obtain ⟨wf, io⟩ := W
  cases wf with
  | Closed => rfl
  | Opened p d => exact absurd rfl (h p d)
  | Unopened d => rfl

theorem fwRun_append (fs : List String) (w : FileWriter) (es : List FwEvent)
    (e : FwEvent) : fwRun fs w (es ++ [e]) = fwStep (fwRun fs w es) e := by
  simp [fwRun, List.foldl_append]

theorem fwRun_closed (es : List FwEvent) : ∀ (fs : List String) (w : FileWriter),
    w.file = .Closed → (fwRun fs w es).1 = fs ∧ (fwRun fs w es).2.file = .Closed := by
  induction es with
  | nil => exact fun fs w h => ⟨rfl, h⟩
  | cons e rest ih =>
    intro fs w h
    obtain ⟨wf, io⟩ := w
    simp only at h
    subst h
    have hstep : (fwStep (fs, ⟨.Closed, io⟩) e).1 = fs ∧
        (fwStep (fs, ⟨.Closed, io⟩) e).2.file = .Closed := by
      cases e with
      | write ok => cases io <;> simp [fwStep, write_to_file]
      | finish => cases io <;> simp [fwStep, finishWriter]
      | discard => simp [fwStep, discard_part]
    have hrest := ih (fwStep (fs, ⟨.Closed, io⟩) e).1 (fwStep (fs, ⟨.Closed, io⟩) e).2
      hstep.2
    exact ⟨hrest.1.trans hstep.1, hrest.2⟩

theorem fwRun_no_write (dest : String) (es : List FwEvent) :
    ∀ (fs : List String) (w : FileWriter),
    (w.file = .Unopened dest ∨ w.file = .Closed) →
    (∀ e ∈ es, ∀ b, e ≠ .write b) →
    (fwRun fs w es).1 = fs ∧
      ((fwRun fs w es).2.file = .Unopened dest ∨ (fwRun fs w es).2.file = .Closed) := by
  induction es with
  | nil => exact fun fs w h _ => ⟨rfl, h⟩
  | cons e rest ih =>
    intro fs w h hnw
    have hstep : (fwStep (fs, w) e).1 = fs ∧
        ((fwStep (fs, w) e).2.file = .Unopened dest ∨
          (fwStep (fs, w) e).2.file = .Closed) := by
      obtain ⟨wf, io⟩ := w
      cases e with
      | write ok => exact absurd rfl (hnw _ (List.mem_cons_self _ _) ok)
      | finish =>
        rcases h with h | h <;> simp only at h <;> subst h <;>
          cases io <;> simp [fwStep, finishWriter]
      | discard =>
        rcases h with h | h <;> simp only at h <;> subst h <;>
          simp [fwStep, discard_part]
    have hrest := ih (fwStep (fs, w) e).1 (fwStep (fs, w) e).2 hstep.2
      (fun e' he' => hnw e' (List.mem_cons_of_mem _ he'))
    exact ⟨hrest.1.trans hstep.1, hrest.2⟩

theorem fwRun_inv (dest : String) (es : List FwEvent) :
    ∀ (fs : List String) (w : FileWriter),
    (((w.file = .Unopened dest ∨ w.file = .Closed) ∧ make_part_path dest ∉ fs) ∨
      (w.file = .Opened (make_part_path dest) dest ∧ make_part_path dest ∈ fs)) →
    (((fwRun fs w es).2.file = .Unopened dest ∨ (fwRun fs w es).2.file = .Closed) ∧
        make_part_path dest ∉ (fwRun fs w es).1) ∨
      ((fwRun fs w es).2.file = .Opened (make_part_path dest) dest ∧
        make_part_path dest ∈ (fwRun fs w es).1) := by
  induction es with
  | nil => exact fun fs w h => h
  | cons e rest ih =>
    intro fs w h
    refine ih (fwStep (fs, w) e).1 (fwStep (fs, w) e).2 ?_
    obtain ⟨wf, io⟩ := w
    rcases h with ⟨hf | hf, hmem⟩ | ⟨hf, hmem⟩ <;> simp only at hf <;> subst hf
    · cases e with
      | write ok =>
        cases io with
        | false => exact Or.inl ⟨Or.inl rfl, by simpa [fwStep, write_to_file] using hmem⟩
        | true =>
          refine Or.inr ⟨by simp [fwStep, write_to_file], ?_⟩
          simp only [fwStep, write_to_file]
          simp only [Bool.not_true, Bool.false_eq_true, if_neg, not_false_eq_true]
          exact (mem_fsCreate _ _ _).mpr (Or.inl rfl)
      | finish =>
        cases io <;>
          exact Or.inl ⟨by simp [fwStep, finishWriter], by simpa [fwStep, finishWriter] using hmem⟩
      | discard =>
        exact Or.inl ⟨by simp [fwStep, discard_part], by simpa [fwStep, discard_part] using hmem⟩
    · cases e with
      | write ok =>
        cases io <;>
          exact Or.inl ⟨by simp [fwStep, write_to_file], by simpa [fwStep, write_to_file] using hmem⟩
      | finish =>
        cases io <;>
          exact Or.inl ⟨by simp [fwStep, finishWriter], by simpa [fwStep, finishWriter] using hmem⟩
      | discard =>
        exact Or.inl ⟨by simp [fwStep, discard_part], by simpa [fwStep, discard_part] using hmem⟩
    · cases e with
      | write ok =>
        cases io with
        | false => exact Or.inr ⟨rfl, by simpa [fwStep, write_to_file] using hmem⟩
        | true => exact Or.inr ⟨by simp [fwStep, write_to_file], by simpa [fwStep, write_to_file] using hmem⟩
      | finish =>
        cases io with
        | false => exact Or.inr ⟨rfl, by simpa [fwStep, finishWriter] using hmem⟩
        | true =>
          refine Or.inl ⟨by simp [fwStep, finishWriter], ?_⟩
          simp only [fwStep, finishWriter]
          simp only [Bool.not_true, Bool.false_eq_true, if_neg, not_false_eq_true]
          intro hcontra
          rcases (mem_fsCreate _ _ _).mp hcontra with heq | hmem2
          · exact make_part_path_ne dest heq
          · exact ((mem_fsRemove _ _ _).mp hmem2).2 rfl
      | discard =>
        refine Or.inl ⟨by simp [fwStep, discard_part], ?_⟩
        simp only [fwStep, discard_part]
        intro hcontra
        exact ((mem_fsRemove _ _ _).mp hcontra).2 rfl

/-- C8: the file-write discipline of `FileWriter`.  For a fresh writer on a
destination whose temp path does not yet exist: (1) a life with no incoming
data never creates any file; (2) the temp file exists exactly while the
writer's slot is open; (3) after a discard — which is also what dropping the
writer runs — the temp file is gone and the slot closed, whatever happened
before; (4) once the slot is closed (by a finish or a discard) no later
event touches the filesystem again, so a writer is never both finalized and
discarded; (5) a successful finish of an open writer closes it and
atomically renames the temp file to the destination, exactly once. -/
theorem file_writer_discipline (dest : String) (es : List FwEvent)
    (fs : List String) (hfs : make_part_path dest ∉ fs) :
    ((∀ e ∈ es, ∀ b, e ≠ FwEvent.write b) →
      (fwRun fs (FileWriter.new dest) es).1 = fs) ∧
    (make_part_path dest ∈ (fwRun fs (FileWriter.new dest) es).1 ↔
      (fwRun fs (FileWriter.new dest) es).2.file =
        .Opened (make_part_path dest) dest) ∧
    (make_part_path dest ∉ (fwRun fs (FileWriter.new dest) (es ++ [.discard])).1 ∧
      (fwRun fs (FileWriter.new dest) (es ++ [.discard])).2.file = .Closed) ∧
    (∀ (fs' : List String) (w : FileWriter), w.file = .Closed →
      (fwRun fs' w es).1 = fs') ∧
    (∀ fs' : List String,
      finishWriter fs' ⟨.Opened (make_part_path dest) dest, true⟩ =
        (fsRename fs' (make_part_path dest) dest, ⟨.Closed, true⟩, true) ∧
      dest ∈ fsRename fs' (make_part_path dest) dest) := by
  have hinv := fwRun_inv dest es fs (FileWriter.new dest)
    (Or.inl ⟨Or.inl rfl, hfs⟩)
  refine ⟨?_, ?_, ?_, ?_, ?_⟩
  · intro hnw
    exact (fwRun_no_write dest es fs (FileWriter.new dest) (Or.inl rfl) hnw).1
  · constructor
    · intro hmem
      rcases hinv with ⟨_, hnot⟩ | ⟨hf, _⟩
      · exact absurd hmem hnot
      · exact hf
    · intro hf
      rcases hinv with ⟨hor, _⟩ | ⟨_, hmem⟩
      · rcases hor with h | h <;> rw [hf] at h <;> exact FileWriterFile.noConfusion h
      · exact hmem
  · rw [fwRun_append]
    have hfile : (fwStep (fwRun fs (FileWriter.new dest) es) .discard).2.file =
        .Closed := discard_part_file _ _
    refine ⟨?_, hfile⟩
    rcases hinv with ⟨hor, hnot⟩ | ⟨hf, _⟩
    · have hno : ∀ p d, (fwRun fs (FileWriter.new dest) es).2.file ≠ .Opened p d := by
        intro p d hcontra
        rcases hor with h | h <;> rw [h] at hcontra <;>
          exact FileWriterFile.noConfusion hcontra
      have heq : (fwStep (fwRun fs (FileWriter.new dest) es) .discard).1 =
          (fwRun fs (FileWriter.new dest) es).1 :=
        discard_part_fst_of_not_opened _ _ hno
      rw [heq]
      exact hnot
    · have heq : (fwStep (fwRun fs (FileWriter.new dest) es) .discard).1 =
          fsRemove (fwRun fs (FileWriter.new dest) es).1 (make_part_path dest) :=
        discard_part_fst_of_opened _ _ _ _ hf
      rw [heq]
      intro hcontra
      exact ((mem_fsRemove _ _ _).mp hcontra).2 rfl
  · exact fun fs' w h => (fwRun_closed es fs' w h).1
  · intro fs'
    exact ⟨rfl, (mem_fsCreate _ _ _).mpr (Or.inl rfl)⟩

/-- Witness for C8 at a concrete destination: a write followed by a discard
leaves no temp file and a closed slot; a dataless finish leaves the
filesystem untouched; after a successful finish the destination exists. -/
theorem file_writer_discipline_witness :
    (make_part_path "dest.txt" ∉
      (fwRun [] (FileWriter.new "dest.txt")
        ([FwEvent.write true] ++ [FwEvent.discard])).1 ∧
      (fwRun [] (FileWriter.new "dest.txt")
        ([FwEvent.write true] ++ [FwEvent.discard])).2.file = .Closed) ∧
    (fwRun [] (FileWriter.new "dest.txt") [FwEvent.finish]).1 = [] ∧
    "dest.txt" ∈ fsRename [] (make_part_path "dest.txt") "dest.txt" := by
  have h1 := file_writer_discipline "dest.txt" [FwEvent.write true] []
    (by decide)
  have h2 := file_writer_discipline "dest.txt" [FwEvent.finish] []
    (by decide)
  exact ⟨h1.2.2.1, h2.1 (by decide), (h1.2.2.2.2 []).2⟩

/-! ## C4: multi-photo batch atomicity -/

theorem fsRemove_fsCreate_same (fs : List String) (p : String) (h : p ∉ fs) :
    fsRemove (fsCreate fs p) p = fs := by
  unfold fsCreate
  rw [if_neg (by simpa using h)]
  unfold fsRemove
  rw [List.filter_cons_of_neg (by simp)]
  exact fsRemove_of_not_mem fs p h

theorem fsRemove_fsCreate_comm (fs : List String) (p q : String) (h : p ≠ q) :
    fsRemove (fsCreate fs p) q = fsCreate (fsRemove fs q) p := by
  by_cases hp : p ∈ fs
  · rw [fsCreate, if_pos (by simpa using hp), fsCreate,
      if_pos (by simpa using (mem_fsRemove fs p q).mpr ⟨hp, h⟩)]
  · rw [fsCreate, if_neg (by simpa using hp)]
    have hp' : p ∉ fsRemove fs q := fun hc => hp ((mem_fsRemove fs p q).mp hc).1
    rw [fsCreate, if_neg (by simpa using hp')]
    unfold fsRemove
    rw [List.filter_cons_of_pos (by simpa using h)]

theorem writerAfterTransfer_eq (fs : List String) (d : String) (r : TransferResult) :
    writerAfterTransfer fs d r =
      ((if r.received then fsCreate fs (make_part_path d) else fs),
        writerAfter (d, r)) := by
  unfold writerAfterTransfer writerAfter
  by_cases hr : r.received = true
  · rw [if_pos hr, if_pos hr, if_pos hr]
    rfl
  · rw [if_neg hr, if_neg hr, if_neg hr]

theorem runMultiTransfers_writers (pairs : List (String × TransferResult)) :
    ∀ fs, (runMultiTransfers fs pairs).2 = pairs.map writerAfter := by
  induction pairs with
  | nil => intro fs; rfl
  | cons q rest ih =>
    intro fs
    obtain ⟨d, r⟩ := q
    show ((writerAfterTransfer fs d r).2 ::
      (runMultiTransfers (writerAfterTransfer fs d r).1 rest).2) = _
    rw [List.map_cons, ih, writerAfterTransfer_eq]

theorem runMultiTransfers_mem (pairs : List (String × TransferResult)) :
    ∀ fs x, x ∈ (runMultiTransfers fs pairs).1 ↔
      x ∈ fs ∨ ∃ q ∈ pairs, q.2.received = true ∧ x = make_part_path q.1 := by
  induction pairs with
  | nil =>
    intro fs x
    simp [runMultiTransfers]
  | cons q rest ih =>
    intro fs x
    obtain ⟨d, r⟩ := q
    show x ∈ (runMultiTransfers (writerAfterTransfer fs d r).1 rest).1 ↔ _
    rw [ih]
    rw [writerAfterTransfer_eq]
    by_cases hr : r.received = true
    · rw [if_pos hr]
      simp only [mem_fsCreate, List.mem_cons]
      constructor
      · rintro ((rfl | hfs) | ⟨q', hq', hrec, rfl⟩)
        · exact Or.inr ⟨(d, r), Or.inl rfl, hr, rfl⟩
        · exact Or.inl hfs
        · exact Or.inr ⟨q', Or.inr hq', hrec, rfl⟩
      · rintro (hfs | ⟨q', (rfl | hq'), hrec, rfl⟩)
        · exact Or.inl (Or.inr hfs)
        · exact Or.inl (Or.inl rfl)
        · exact Or.inr ⟨q', hq', hrec, rfl⟩
    · rw [if_neg hr]
      simp only [List.mem_cons]
      constructor
      · rintro (hfs | ⟨q', hq', hrec, rfl⟩)
        · exact Or.inl hfs
        · exact Or.inr ⟨q', Or.inr hq', hrec, rfl⟩
      · rintro (hfs | ⟨q', (rfl | hq'), hrec, rfl⟩)
        · exact Or.inl hfs
        · exact absurd hrec hr
        · exact Or.inr ⟨q', hq', hrec, rfl⟩

theorem runMultiTransfers_remove_comm (pairs : List (String × TransferResult)) :
    ∀ (fs : List String) (q0 : String),
    (∀ q ∈ pairs, make_part_path q.1 ≠ q0) →
    (runMultiTransfers (fsRemove fs q0) pairs).1 =
      fsRemove (runMultiTransfers fs pairs).1 q0 := by
  induction pairs with
  | nil => intro fs q0 _; rfl
  | cons q rest ih =>
    intro fs q0 hne
    obtain ⟨d, r⟩ := q
    show (runMultiTransfers (writerAfterTransfer (fsRemove fs q0) d r).1 rest).1 = _
    rw [writerAfterTransfer_eq]
    by_cases hr : r.received = true
    · rw [if_pos hr]
      rw [← fsRemove_fsCreate_comm fs (make_part_path d) q0
        (hne (d, r) (List.mem_cons_self _ _))]
      rw [ih (fsCreate fs (make_part_path d)) q0
        (fun q' hq' => hne q' (List.mem_cons_of_mem _ hq'))]
      show _ = fsRemove (runMultiTransfers (writerAfterTransfer fs d r).1 rest).1 q0
      rw [writerAfterTransfer_eq, if_pos hr]
    · rw [if_neg hr]
      rw [ih fs q0 (fun q' hq' => hne q' (List.mem_cons_of_mem _ hq'))]
      show _ = fsRemove (runMultiTransfers (writerAfterTransfer fs d r).1 rest).1 q0
      rw [writerAfterTransfer_eq, if_neg hr]

theorem discardAll_runMulti (pairs : List (String × TransferResult)) :
    ∀ fs, (∀ q ∈ pairs, make_part_path q.1 ∉ fs) →
    ((pairs.map (fun q => make_part_path q.1)).Nodup) →
    discardAll (runMultiTransfers fs pairs).1 (runMultiTransfers fs pairs).2 = fs := by
  induction pairs with
  | nil => intro fs _ _; rfl
  | cons q rest ih =>
    intro fs hfresh hnd
    obtain ⟨d, r⟩ := q
    have hnd' : (rest.map (fun q => make_part_path q.1)).Nodup :=
      (List.nodup_cons.mp (by simpa using hnd)).2
    have hd_not : make_part_path d ∉ rest.map (fun q => make_part_path q.1) :=
      (List.nodup_cons.mp (by simpa using hnd)).1
    show discardAll (runMultiTransfers (writerAfterTransfer fs d r).1 rest).1
      ((writerAfterTransfer fs d r).2 ::
        (runMultiTransfers (writerAfterTransfer fs d r).1 rest).2) = fs
    rw [writerAfterTransfer_eq]
    by_cases hr : r.received = true
    · rw [if_pos hr]
      show discardAll
        (discard_part (runMultiTransfers (fsCreate fs (make_part_path d)) rest).1
          (writerAfter (d, r))).1
        (runMultiTransfers (fsCreate fs (make_part_path d)) rest).2 = fs
      rw [discard_part_fst_of_opened _ _ (make_part_path d) d
        (by simp [writerAfter, hr])]
      rw [← runMultiTransfers_remove_comm rest (fsCreate fs (make_part_path d))
        (make_part_path d)
        (fun q' hq' heq => hd_not (heq ▸ List.mem_map.mpr ⟨q', hq', rfl⟩))]
      rw [fsRemove_fsCreate_same fs (make_part_path d)
        (hfresh (d, r) (List.mem_cons_self _ _))]
      rw [runMultiTransfers_writers rest (fsCreate fs (make_part_path d)),
        ← runMultiTransfers_writers rest fs]
      exact ih fs (fun q' hq' => hfresh q' (List.mem_cons_of_mem _ hq')) hnd'
    · rw [if_neg hr]
      show discardAll
        (discard_part (runMultiTransfers fs rest).1 (writerAfter (d, r))).1
        (runMultiTransfers fs rest).2 = fs
      rw [discard_part_fst_of_not_opened _ _ (by
        intro p d' hc
        simp only [writerAfter, hr, Bool.false_eq_true, if_neg, not_false_eq_true,
          FileWriter.new] at hc
        exact FileWriterFile.noConfusion hc)]
      exact ih fs (fun q' hq' => hfresh q' (List.mem_cons_of_mem _ hq')) hnd'

theorem finishAll_spec (pairs : List (String × TransferResult)) :
    ∀ fs, (∀ q ∈ pairs, ∀ q' ∈ pairs, make_part_path q.1 ≠ q'.1) →
    (finishAll fs (pairs.map writerAfter)).2 = true ∧
    (∀ x, x ∈ (finishAll fs (pairs.map writerAfter)).1 ↔
      ((x ∈ fs ∨ ∃ q ∈ pairs, q.2.received = true ∧ x = q.1) ∧
        ¬ ∃ q ∈ pairs, q.2.received = true ∧ x = make_part_path q.1)) := by
  induction pairs with
  | nil =>
    intro fs _
    refine ⟨rfl, fun x => ?_⟩
    simp [finishAll]
  | cons q rest ih =>
    intro fs h3
    obtain ⟨d, r⟩ := q
    have h3' : ∀ q ∈ rest, ∀ q' ∈ rest, make_part_path q.1 ≠ q'.1 :=
      fun q hq q' hq' => h3 q (List.mem_cons_of_mem _ hq) q' (List.mem_cons_of_mem _ hq')
    by_cases hr : r.received = true
    · have hw : writerAfter (d, r) = ⟨.Opened (make_part_path d) d, true⟩ := by
        simp [writerAfter, hr]
      have hstep : finishWriter fs ⟨.Opened (make_part_path d) d, true⟩ =
          (fsRename fs (make_part_path d) d, ⟨.Closed, true⟩, true) := rfl
      simp only [List.map_cons, finishAll, hw, hstep, Bool.true_and]
      obtain ⟨hok, hmem⟩ := ih (fsRename fs (make_part_path d) d) h3'
      refine ⟨by rw [hok], fun x => ?_⟩
      rw [hmem x]
      have hpd : make_part_path d ≠ d :=
        h3 (d, r) (List.mem_cons_self _ _) (d, r) (List.mem_cons_self _ _)
      have hmemRename : x ∈ fsRename fs (make_part_path d) d ↔
          (x = d ∨ (x ∈ fs ∧ x ≠ make_part_path d)) := by
        unfold fsRename
        rw [mem_fsCreate, mem_fsRemove]
      rw [hmemRename]
      constructor
      · rintro ⟨hin, hnp⟩
        constructor
        · rcases hin with (hxd | ⟨hfs, _⟩) | ⟨q', hq', hrec, rfl⟩
          · exact Or.inr ⟨(d, r), List.mem_cons_self _ _, hr, hxd⟩
          · exact Or.inl hfs
          · exact Or.inr ⟨q', List.mem_cons_of_mem _ hq', hrec, rfl⟩
        · rintro ⟨q', hq', hrec, rfl⟩
          rcases List.mem_cons.mp hq' with heq | hq'mem
          · rcases hin with (hcontra | ⟨_, hcontra⟩) | ⟨q'', hq'', _, hcontra⟩
            · exact (h3 q' hq' (d, r) (List.mem_cons_self _ _)) hcontra
            · exact hcontra (by rw [heq])
            · exact (h3 q' hq' q'' (List.mem_cons_of_mem _ hq'')) hcontra
          · exact hnp ⟨q', hq'mem, hrec, rfl⟩
      · rintro ⟨hin, hnp⟩
        constructor
        · rcases hin with hfs | ⟨q', hq', hrec, rfl⟩
          · refine Or.inl (Or.inr ⟨hfs, ?_⟩)
            intro hcontra
            exact hnp ⟨(d, r), List.mem_cons_self _ _, hr, hcontra⟩
          · rcases List.mem_cons.mp hq' with heq | hq'mem
            · exact Or.inl (Or.inl (by rw [heq]))
            · exact Or.inr ⟨q', hq'mem, hrec, rfl⟩
        · rintro ⟨q', hq', hrec, rfl⟩
          exact hnp ⟨q', List.mem_cons_of_mem _ hq', hrec, rfl⟩
    · have hw : writerAfter (d, r) = FileWriter.new d := by
        simp [writerAfter, hr]
      have hstep : finishWriter fs (FileWriter.new d) = (fs, ⟨.Closed, true⟩, true) := rfl
      simp only [List.map_cons, finishAll, hw, hstep, Bool.true_and]
      obtain ⟨hok, hmem⟩ := ih fs h3'
      refine ⟨by rw [hok], fun x => ?_⟩
      rw [hmem x]
      constructor
      · rintro ⟨hin, hnp⟩
        constructor
        · rcases hin with hfs | ⟨q', hq', hrec, rfl⟩
          · exact Or.inl hfs
          · exact Or.inr ⟨q', List.mem_cons_of_mem _ hq', hrec, rfl⟩
        · rintro ⟨q', hq', hrec, rfl⟩
          rcases List.mem_cons.mp hq' with heq | hq'mem
          · rw [heq] at hrec
            exact hr hrec
          · exact hnp ⟨q', hq'mem, hrec, rfl⟩
      · rintro ⟨hin, hnp⟩
        constructor
        · rcases hin with hfs | ⟨q', hq', hrec, rfl⟩
          · exact Or.inl hfs
          · rcases List.mem_cons.mp hq' with heq | hq'mem
            · rw [heq] at hrec
              exact absurd hrec hr
            · exact Or.inr ⟨q', hq'mem, hrec, rfl⟩
        · rintro ⟨q', hq', hrec, rfl⟩
          exact hnp ⟨q', List.mem_cons_of_mem _ hq', hrec, rfl⟩

theorem mem_zip_range' (dests : List String) :
    ∀ (s : Nat) (d : String), d ∈ dests →
    ∃ i, s ≤ i ∧ i < s + dests.length ∧
      (d, i) ∈ dests.zip (List.range' s dests.length) := by
  induction dests with
  | nil => intro s d hd; cases hd
  | cons d₀ rest ih =>
    intro s d hd
    rcases List.mem_cons.mp hd with rfl | hmem
    · refine ⟨s, le_refl s, by simp, ?_⟩
      rw [List.length_cons, List.range'_succ, List.zip_cons_cons]
      exact List.mem_cons_self _ _
    · obtain ⟨i, h1, h2, h3⟩ := ih (s + 1) d hmem
      refine ⟨i, by omega, ?_, ?_⟩
      · simp only [List.length_cons]
        omega
      · rw [List.length_cons, List.range'_succ, List.zip_cons_cons]
        exact List.mem_cons_of_mem _ h3

theorem zip_range'_snd_mem (dests : List String) :
    ∀ (s : Nat) (z : String × Nat), z ∈ dests.zip (List.range' s dests.length) →
    s ≤ z.2 ∧ z.2 < s + dests.length ∧ z.1 ∈ dests := by
  induction dests with
  | nil => intro s z hz; cases hz
  | cons d₀ rest ih =>
    intro s z hz
    rw [List.length_cons, List.range'_succ, List.zip_cons_cons] at hz
    rcases List.mem_cons.mp hz with rfl | hmem
    · exact ⟨le_refl s, by simp only [List.length_cons]; omega, List.mem_cons_self _ _⟩
    · obtain ⟨h1, h2, h3⟩ := ih (s + 1) z hmem
      exact ⟨by omega, by simp only [List.length_cons]; omega, List.mem_cons_of_mem _ h3⟩

theorem zip_range'_mem_of (dests : List String) :
    ∀ (s i : Nat), s ≤ i → i < s + dests.length →
    ∃ d, (d, i) ∈ dests.zip (List.range' s dests.length) := by
  induction dests with
  | nil =>
    intro s i h1 h2
    exfalso
    rw [List.length_nil] at h2
    omega
  | cons d₀ rest ih =>
    intro s i h1 h2
    by_cases hi : i = s
    · subst hi
      refine ⟨d₀, ?_⟩
      rw [List.length_cons, List.range'_succ, List.zip_cons_cons]
      exact List.mem_cons_self _ _
    · obtain ⟨d, hd⟩ := ih (s + 1) i (by omega)
        (by simp only [List.length_cons] at h2; omega)
      refine ⟨d, ?_⟩
      rw [List.length_cons, List.range'_succ, List.zip_cons_cons]
      exact List.mem_cons_of_mem _ hd

/-- C4: multi-photo batches are all-or-nothing.  With the batch's
destination paths fresh and non-colliding: if any of the transfers fails,
the filesystem is exactly as before (every partial temp file discarded, no
destination file for any photo of the set), the completion callback is not
invoked and the row's photos-downloaded timestamp stays untouched; the
callback is invoked only when every transfer succeeded; and when every
transfer succeeds (delivering data), every destination file exists, no temp
file remains, and the callback marks the row downloaded. -/
theorem multi_photo_all_or_nothing (fs : List String) (db : DB) (ps : Photoset)
    (results : Nat → TransferResult) (now : String) (dests : List String)
    (hdests : multiSetPaths ps = some dests)
    (hfresh : ∀ d ∈ dests, d ∉ fs ∧ make_part_path d ∉ fs)
    (hnodup : (dests.map (fun d => make_part_path d)).Nodup)
    (hpd : ∀ d ∈ dests, ∀ d' ∈ dests, make_part_path d ≠ d') :
    ((∃ i, 1 ≤ i ∧ i ≤ dests.length ∧ (results i).ok = false) →
      process_multi_set fs ps results = some (fs, false) ∧
      download_multi_photo_photoset fs db ps results now = some (fs, db) ∧
      ∀ d ∈ dests, d ∉ fs ∧ make_part_path d ∉ fs) ∧
    (∀ fs' inv, process_multi_set fs ps results = some (fs', inv) → inv = true →
      ∀ i, 1 ≤ i → i ≤ dests.length → (results i).ok = true) ∧
    ((∀ i, 1 ≤ i → i ≤ dests.length →
        (results i).ok = true ∧ (results i).received = true) →
      ∃ fs', process_multi_set fs ps results = some (fs', true) ∧
        download_multi_photo_photoset fs db ps results now =
          some (fs', (db.set_photos_downloaded_at ps.rowid now).1) ∧
        ∀ d ∈ dests, d ∈ fs' ∧ make_part_path d ∉ fs') := by
  have hq_mem : ∀ q ∈ (dests.zip (List.range' 1 dests.length)).map
      (fun q => (q.1, results q.2)),
      q.1 ∈ dests ∧ ∃ i, 1 ≤ i ∧ i ≤ dests.length ∧ q.2 = results i := by
    intro q hq
    obtain ⟨z, hz, rfl⟩ := List.mem_map.mp hq
    obtain ⟨h1, h2, h3⟩ := zip_range'_snd_mem dests 1 z hz
    exact ⟨h3, z.2, h1, by omega, rfl⟩
  have hfresh' : ∀ q ∈ (dests.zip (List.range' 1 dests.length)).map
      (fun q => (q.1, results q.2)), make_part_path q.1 ∉ fs :=
    fun q hq => (hfresh q.1 (hq_mem q hq).1).2
  have hmap : ((dests.zip (List.range' 1 dests.length)).map
      (fun q => (q.1, results q.2))).map (fun q => make_part_path q.1) =
      dests.map (fun d => make_part_path d) := by
    rw [List.map_map]
    have hcomp : ((fun q : String × TransferResult => make_part_path q.1) ∘
        (fun q : String × Nat => (q.1, results q.2))) =
        (fun d : String => make_part_path d) ∘ Prod.fst := rfl
    rw [hcomp, ← List.map_map, List.map_fst_zip]
    simp
  have hnodup' : (((dests.zip (List.range' 1 dests.length)).map
      (fun q => (q.1, results q.2))).map (fun q => make_part_path q.1)).Nodup := by
    rw [hmap]
    exact hnodup
  have hpd' : ∀ q ∈ (dests.zip (List.range' 1 dests.length)).map
      (fun q => (q.1, results q.2)),
      ∀ q' ∈ (dests.zip (List.range' 1 dests.length)).map
        (fun q => (q.1, results q.2)), make_part_path q.1 ≠ q'.1 :=
    fun q hq q' hq' => hpd q.1 (hq_mem q hq).1 q'.1 (hq_mem q' hq').1
  have hfail_proc : ∀ i, 1 ≤ i → i ≤ dests.length → (results i).ok = false →
      process_multi_set fs ps results = some (fs, false) := by
    intro i h1 h2 hfail
    obtain ⟨d, hd⟩ := zip_range'_mem_of dests 1 i (by omega) (by omega)
    have hany : ((dests.zip (List.range' 1 dests.length)).map
        (fun q => (q.1, results q.2))).any (fun q => !q.2.ok) = true := by
      apply List.any_eq_true.mpr
      refine ⟨(d, results i), List.mem_map.mpr ⟨(d, i), hd, rfl⟩, ?_⟩
      simp [hfail]
    simp only [process_multi_set, hdests]
    rw [if_pos hany]
    rw [discardAll_runMulti _ fs hfresh' hnodup']
  refine ⟨?_, ?_, ?_⟩
  · rintro ⟨i, h1, h2, hfail⟩
    have hproc := hfail_proc i h1 h2 hfail
    refine ⟨hproc, ?_, hfresh⟩
    simp only [download_multi_photo_photoset, hproc]
    rfl
  · intro fs' inv hproc hinv i h1 h2
    by_cases hok : (results i).ok = true
    · exact hok
    · exfalso
      have hfail : (results i).ok = false := by
        simpa using hok
      rw [hfail_proc i h1 h2 hfail] at hproc
      have hpair := Option.some.inj hproc
      have hinv' : inv = false := (congrArg Prod.snd hpair).symm
      rw [hinv'] at hinv
      exact Bool.false_ne_true hinv
  · intro hall
    have hallp : ∀ q ∈ (dests.zip (List.range' 1 dests.length)).map
        (fun q => (q.1, results q.2)), q.2.ok = true ∧ q.2.received = true := by
      intro q hq
      obtain ⟨_, i, h1, h2, hres⟩ := (hq_mem q hq)
      rw [hres]
      exact hall i h1 h2
    have hany : ((dests.zip (List.range' 1 dests.length)).map
        (fun q => (q.1, results q.2))).any (fun q => !q.2.ok) = false := by
      rw [List.any_eq_false]
      intro q hq
      simp [(hallp q hq).1]
    obtain ⟨hok, hmem⟩ := finishAll_spec
      ((dests.zip (List.range' 1 dests.length)).map (fun q => (q.1, results q.2)))
      (runMultiTransfers fs ((dests.zip (List.range' 1 dests.length)).map
        (fun q => (q.1, results q.2)))).1 hpd'
    have hproc : process_multi_set fs ps results =
        some ((finishAll (runMultiTransfers fs
            ((dests.zip (List.range' 1 dests.length)).map
              (fun q => (q.1, results q.2)))).1
          (((dests.zip (List.range' 1 dests.length)).map
            (fun q => (q.1, results q.2))).map writerAfter)).1, true) := by
      simp only [process_multi_set, hdests]
      rw [if_neg (by rw [hany]; exact Bool.false_ne_true)]
      rw [runMultiTransfers_writers]
      rw [hok]
    refine ⟨_, hproc, ?_, ?_⟩
    · simp only [download_multi_photo_photoset, hproc]
      simp
    · intro d hd
      obtain ⟨i, hi1, hi2, hz⟩ := mem_zip_range' dests 1 d hd
      have hqmem : (d, results i) ∈ (dests.zip (List.range' 1 dests.length)).map
          (fun q => (q.1, results q.2)) := List.mem_map.mpr ⟨(d, i), hz, rfl⟩
      have hrec : (results i).received = true := (hall i hi1 (by omega)).2
      constructor
      · apply (hmem d).mpr
        constructor
        · exact Or.inr ⟨(d, results i), hqmem, hrec, rfl⟩
        · rintro ⟨q, hq, _, heq⟩
          exact hpd q.1 (hq_mem q hq).1 d hd heq.symm
      · intro hc
        obtain ⟨_, hnp⟩ := (hmem (make_part_path d)).mp hc
        exact hnp ⟨(d, results i), hqmem, hrec, rfl⟩

/-- Witness for C4 at a concrete two-photo set: with transfer 2 failing the
filesystem and store are untouched and the callback is skipped; with both
transfers succeeding both destination files exist, no temp file remains, and
the row is marked downloaded. -/
theorem multi_photo_all_or_nothing_witness :
    process_multi_set [] ⟨4, "anon", "20", ["https://h/a.jpg", "https://h/b.jpg"]⟩
      (fun i => ⟨true, i ≠ 2⟩) = some ([], false) ∧
    download_multi_photo_photoset [] exDB4
      ⟨4, "anon", "20", ["https://h/a.jpg", "https://h/b.jpg"]⟩
      (fun i => ⟨true, i ≠ 2⟩) "td" = some ([], exDB4) ∧
    ∃ fs', process_multi_set [] ⟨4, "anon", "20", ["https://h/a.jpg", "https://h/b.jpg"]⟩
      (fun _ => ⟨true, true⟩) = some (fs', true) ∧
      download_multi_photo_photoset [] exDB4
        ⟨4, "anon", "20", ["https://h/a.jpg", "https://h/b.jpg"]⟩
        (fun _ => ⟨true, true⟩) "td" =
        some (fs', (exDB4.set_photos_downloaded_at 4 "td").1) ∧
      ∀ d ∈ ["@anon-20-img1-a.jpg", "@anon-20-img2-b.jpg"],
        d ∈ fs' ∧ make_part_path d ∉ fs' := by
  have hfail := multi_photo_all_or_nothing []
    exDB4 ⟨4, "anon", "20", ["https://h/a.jpg", "https://h/b.jpg"]⟩
    (fun i => ⟨true, i ≠ 2⟩) "td" ["@anon-20-img1-a.jpg", "@anon-20-img2-b.jpg"]
    (by decide) (by decide) (by decide) (by decide)
  have hsucc := multi_photo_all_or_nothing []
    exDB4 ⟨4, "anon", "20", ["https://h/a.jpg", "https://h/b.jpg"]⟩
    (fun _ => ⟨true, true⟩) "td" ["@anon-20-img1-a.jpg", "@anon-20-img2-b.jpg"]
    (by decide) (by decide) (by decide) (by decide)
  obtain ⟨h1, h2, _⟩ := hfail.1 ⟨2, by omega, by decide, by decide⟩
  obtain ⟨fs', hp, hdl, hmem⟩ := hsucc.2.2 (fun i _ _ => ⟨rfl, rfl⟩)
  exact ⟨h1, h2, fs', hp, hdl, hmem⟩

end Phog
